import Mathlib

/-!
# gogirt: repository discovery and the broadcast loop

A shallow embedding of `gogirt.go`.

* Go strings are lists of characters (`GoString`).  The program measures and
  slices strings only at the ASCII suffix `"/.git"` and splits them only at
  the ASCII separators `'/'`, `','` and `' '`, where byte positions and
  character positions agree.
* The directory tree that `filepath.Walk` traverses is an explicit value
  (`Root`, `Entries`), entries in the order `readDirNames` lists them; every
  listed entry exists when the walk comes to it.
* The external world of the broadcast loop (child processes, standard input)
  is an abstract state `W` with two operations (`Env`); what the program does
  to it is recorded as a list of `Event`s. Colour codes are left out of the
  recorded texts.
-/

deriving instance DecidableEq for Except

namespace Gogirt

/-! ## Strings -/

/-- A Go string, as the list of its characters. -/
abbrev GoString := List Char

/-- Library `strings.Count(s, sep)` for a one-character separator. -/
def Count (s : GoString) (sep : Char) : Nat :=
  s.count sep

/-- Library `strings.Split(s, sep)` for a one-character separator: the
pieces between consecutive separators, empty pieces included; always at
least one piece. -/
def Split : GoString → Char → List GoString
  | [], _ => [[]]
  | c :: cs, sep =>
    if c = sep then [] :: Split cs sep
    else
      match Split cs sep with
      | [] => [[c]]
      | piece :: pieces => (c :: piece) :: pieces

/-- Library `strings.Contains(s, substr)`. -/
def Contains : GoString → GoString → Bool
  | [], substr => substr.isEmpty
  | c :: cs, substr => substr.isPrefixOf (c :: cs) || Contains cs substr

/-- Library `unicode.IsSpace`. -/
def IsSpace (c : Char) : Bool :=
  let n := c.toNat
  (9 ≤ n && n ≤ 13) || n = 0x20 || n = 0x85 || n = 0xA0 || n = 0x1680 ||
  (0x2000 ≤ n && n ≤ 0x200A) || n = 0x2028 || n = 0x2029 || n = 0x202F ||
  n = 0x205F || n = 0x3000

/-- Library `strings.TrimSpace`. -/
def TrimSpace (s : GoString) : GoString :=
  ((s.dropWhile IsSpace).reverse.dropWhile IsSpace).reverse

/-- The slice `s[len(s)-n:]`, for `n ≤ len(s)`. -/
def lastN (s : GoString) (n : Nat) : GoString :=
  s.drop (s.length - n)

/-! ## Paths: `filepath.Clean` and `filepath.Join` -/

/-- One step of `filepath.Clean` on the path elements: empty elements and
`.` are dropped, `..` removes the element before it when there is one that
is not itself `..`, is dropped at the top of a rooted path, and is kept
otherwise. `out` holds the elements kept so far. -/
def cleanElems (rooted : Bool) : List GoString → List GoString → List GoString
  | [], out => out
  | e :: es, out =>
    if e = [] ∨ e = ['.'] then cleanElems rooted es out
    else if e = ['.', '.'] then
      if out ≠ [] ∧ out.getLast? ≠ some ['.', '.'] then cleanElems rooted es out.dropLast
      else if rooted then cleanElems rooted es out
      else cleanElems rooted es (out ++ [e])
    else cleanElems rooted es (out ++ [e])

/-- Library `strings.Join(elems, sep)` for a one-character separator. -/
def StrJoin : List GoString → Char → GoString
  | [], _ => []
  | [e], _ => e
  | e :: es, sep => e ++ sep :: StrJoin es sep

/-- Library `filepath.Clean` (Unix): the shortest equivalent path. -/
def Clean (path : GoString) : GoString :=
  if path = [] then ['.']
  else
    let rooted : Bool := path.head? = some '/'
    let out := StrJoin (cleanElems rooted (Split path '/') []) '/'
    if rooted then '/' :: out
    else if out = [] then ['.'] else out

/-- Library `filepath.Join(dir, name)`: the non-empty elements joined by a
separator, then cleaned. -/
def Join (dir name : GoString) : GoString :=
  if dir ≠ [] then Clean (dir ++ '/' :: name)
  else if name ≠ [] then Clean name
  else []

/-! ## The directory tree and `filepath.Walk` -/

/-- The entries of a directory, in listing order. Each entry is a
non-directory (`file`), a directory with its own entries (`dir`), or a
directory whose listing fails (`noread`). -/
inductive Entries where
  | nil
  | file (name : GoString) (rest : Entries)
  | dir (name : GoString) (children : Entries) (rest : Entries)
  | noread (name : GoString) (rest : Entries)
  deriving DecidableEq, Repr

/-- What `os.Lstat` finds at the root path given to `filepath.Walk`. -/
inductive Root where
  | missing
  | file
  | dir (entries : Entries)
  | noread
  deriving DecidableEq, Repr

/-- The error values that flow through the walk. `panic` stands for a
run-time panic raised inside the callback: it unwinds the walk as any
error other than `SkipDir` does. -/
inductive Error where
  | SkipDir
  | io
  | panic
  deriving DecidableEq, Repr

/-- The part of `os.FileInfo` the program reads. -/
structure FileInfo where
  IsDir : Bool
  deriving DecidableEq, Repr

/-- Type `filepath.WalkFunc`, with the variables the closure captures as an
explicit state. `info` is `none` for Go's nil, passed only with an error. -/
abbrev WalkFunc (σ : Type) :=
  GoString → Option FileInfo → Option Error → σ → σ × Option Error

/-- The loop `for _, name := range names` of the library's `walk`, with the
call `walk(filename, fileInfo, walkFn)` for each entry. A non-directory
passes on whatever the callback returns; for a directory `SkipDir` is
absorbed and the loop goes on with the next name. -/
def walkNames {σ : Type} (walkFn : WalkFunc σ) (path : GoString) :
    Entries → σ → σ × Option Error
  | .nil, s => (s, none)
  | .file name rest, s =>
    match walkFn (Join path name) (some ⟨false⟩) none s with
    | (s1, some err) => (s1, some err)
    | (s1, none) => walkNames walkFn path rest s1
  | .noread name rest, s =>
    match walkFn (Join path name) (some ⟨true⟩) (some .io) s with
    | (s1, some err) =>
      if err = .SkipDir then walkNames walkFn path rest s1 else (s1, some err)
    | (s1, none) => walkNames walkFn path rest s1
  | .dir name children rest, s =>
    match walkFn (Join path name) (some ⟨true⟩) none s with
    | (s1, some err) =>
      if err = .SkipDir then walkNames walkFn path rest s1 else (s1, some err)
    | (s1, none) =>
      match walkNames walkFn (Join path name) children s1 with
      | (s2, some err) =>
        if err = .SkipDir then walkNames walkFn path rest s2 else (s2, some err)
      | (s2, none) => walkNames walkFn path rest s2

/-- Library `filepath.Walk(root, fn)`: the callback on the root, then on
every entry below it in listing order; a `SkipDir` that reaches the top is
not an error. -/
def Walk {σ : Type} (root : GoString) (fs : Root) (fn : WalkFunc σ) (s : σ) :
    σ × Option Error :=
  let r : σ × Option Error :=
    match fs with
    | .missing => fn root none (some .io) s
    | .file => fn root (some ⟨false⟩) none s
    | .noread => fn root (some ⟨true⟩) (some .io) s
    | .dir entries =>
      match fn root (some ⟨true⟩) none s with
      | (s1, some err) => (s1, some err)
      | (s1, none) => walkNames fn root entries s1
  if r.2 = some .SkipDir then (r.1, none) else r

/-! ## Discovery -/

/-- A git project, by the path of its working directory. -/
structure GitRoot where
  Path : GoString
  deriving DecidableEq, Repr

/-- The depth limit of the search. -/
def maxDepth : Nat := 3

/-- The marker suffix `"/.git"`. -/
def dotGit : GoString := ['/', '.', 'g', 'i', 't']

/-- Source `makeGitRootsFromPath`: each path without its last five
characters; `none` when a slice bound is out of range. -/
def makeGitRootsFromPath : List GoString → Option (List GitRoot)
  | [] => some []
  | path :: paths =>
    if path.length < 5 then none
    else
      match makeGitRootsFromPath paths with
      | none => none
      | some roots => some (⟨path.take (path.length - 5)⟩ :: roots)

/-- Source `isFilterDirInGitPath`: whether the last but one element of the
path is one of the comma-separated entries of the filter; `none` when the
index is out of range. -/
def isFilterDirInGitPath (path filter : GoString) : Option Bool :=
  let splitPath := Split path '/'
  if splitPath.length < 2 then none
  else
    let terminalDirectory := splitPath.getD (splitPath.length - 2) []
    some ((Split filter ',').any fun filterPath => filterPath = terminalDirectory)

/-- The closure that `getGitPaths` hands to `filepath.Walk`; the state is
the captured slice `filePaths`. -/
def gitWalkFn (rootDir filter : GoString) : WalkFunc (List GoString) :=
  fun path info err filePaths =>
    if err.isSome then (filePaths, err)
    else if Count path '/' ≥ maxDepth + Count rootDir '/' then (filePaths, some .SkipDir)
    else if (info.elim false FileInfo.IsDir) ∧ path.length > 5 ∧ lastN path 5 = dotGit then
      if filter.length = 0 then (filePaths ++ [path], some .SkipDir)
      else
        match isFilterDirInGitPath path filter with
        | none => (filePaths, some .panic)
        | some true => (filePaths ++ [path], some .SkipDir)
        | some false => (filePaths, none)
    else (filePaths, none)

/-- Source `getGitPaths`: the marker paths the walk collects, or the error
on which the program stops (`log.Fatal`, or a panic). -/
def getGitPaths (fs : Root) (rootDir filter : GoString) : Except Error (List GoString) :=
  match Walk rootDir fs (gitWalkFn rootDir filter) [] with
  | (_, some err) => .error err
  | (filePaths, none) => .ok filePaths

/-! ## The outside world of the broadcast loop -/

/-- A child process as `exec.Command` sets it up in `issueCommand`:
program, arguments, working directory, and whether its output is captured
(`cmd.Output()`) or it runs on the terminal (`cmd.Run()`). -/
structure Cmd where
  name : GoString
  args : List GoString
  dir : GoString
  capture : Bool
  deriving DecidableEq, Repr

/-- What the program does to the outside world. -/
inductive Event where
  | exec (cmd : Cmd)
  | stdout (text : GoString)
  | stderr (text : GoString)
  | readLine
  deriving DecidableEq, Repr

/-- The outside world, with state `W`: running a child process to its end
(`none` when `Output` or `Run` reports an error, else its standard output),
and reading standard input up to the next newline. -/
structure Env (W : Type) where
  run : Cmd → W → Option GoString × W
  readString : W → GoString × W

/-- The world and the events so far. -/
structure St (W : Type) where
  world : W
  trace : List Event

/-- Appends one event to the trace. -/
def St.emit {W : Type} (st : St W) (e : Event) : St W :=
  { st with trace := st.trace ++ [e] }

/-- How a piece of the program ends: it returns a value, stops the process
through `log.Fatal` with a message, or panics. -/
inductive Res (W α : Type) where
  | ok (val : α) (st : St W)
  | fatal (msg : GoString) (st : St W)
  | panic (st : St W)

/-- The state in which a piece of the program ended. -/
def Res.st {W α : Type} : Res W α → St W
  | .ok _ st => st
  | .fatal _ st => st
  | .panic st => st

/-- Source `issueCommand`: the command string split at single spaces, the
first piece the program and the others its arguments, run in `path`. The
result is the trimmed output when captured, the empty string otherwise; a
failed command panics, and so would an index out of range. -/
def issueCommand {W : Type} (env : Env W) (command path : GoString) (returnOutput : Bool)
    (st : St W) : Res W GoString :=
  let commandList := Split command ' '
  match commandList with
  | [] => .panic st
  | name :: args =>
    let cmd : Cmd := { name := name, args := args, dir := path, capture := returnOutput }
    match env.run cmd st.world with
    | (none, w) => .panic { world := w, trace := st.trace ++ [.exec cmd] }
    | (some status, w) =>
      .ok (if returnOutput then TrimSpace status else [])
        { world := w, trace := st.trace ++ [.exec cmd] }

/-- Source `GitRoot.getStatus`. -/
def GitRoot.getStatus {W : Type} (env : Env W) (t : GitRoot) (st : St W) : Res W GoString :=
  issueCommand env "git status".toList t.Path true st

/-- Source `GitRoot.isClean`. -/
def GitRoot.isClean {W : Type} (env : Env W) (t : GitRoot) (st : St W) : Res W Bool :=
  match t.getStatus env st with
  | .ok status st1 => .ok (Contains status "working tree clean".toList) st1
  | .fatal msg st1 => .fatal msg st1
  | .panic st1 => .panic st1

/-- Source `GitRoot.getBranch`. -/
def GitRoot.getBranch {W : Type} (env : Env W) (t : GitRoot) (st : St W) : Res W GoString :=
  issueCommand env "git rev-parse --abbrev-ref HEAD".toList t.Path true st

/-- Source `GitRoot.PrettyPrint`. Texts are recorded without their colour
codes, and the status text as it is passed to `Printf`. -/
def GitRoot.PrettyPrint {W : Type} (env : Env W) (t : GitRoot) (st : St W) : Res W Unit :=
  match t.isClean env st with
  | .fatal msg st1 => .fatal msg st1
  | .panic st1 => .panic st1
  | .ok rootIsClean st1 =>
    let cleanText := if rootIsClean then "true".toList else "false".toList
    match t.getBranch env st1 with
    | .fatal msg st2 => .fatal msg st2
    | .panic st2 => .panic st2
    | .ok branch st2 =>
      let st3 := st2.emit (.stdout ("\nProject ".toList ++ t.Path ++ " Overview (Branch ".toList
        ++ branch ++ "):\n - Project state is clean: ".toList ++ cleanText ++ "\n".toList))
      if !rootIsClean then
        match t.getStatus env st3 with
        | .fatal msg st4 => .fatal msg st4
        | .panic st4 => .panic st4
        | .ok status st4 => .ok () (st4.emit (.stdout status))
      else .ok () st3

/-- Source `getDirtyHandleChoice`: the warning and the menu, one line read
from standard input (a read error is ignored), trimmed; an empty answer
becomes `"n o t h i n g"`. -/
def getDirtyHandleChoice {W : Type} (env : Env W) (root : GitRoot) (st : St W) :
    GoString × St W :=
  let st1 := st.emit (.stdout ("Directory ".toList ++ root.Path
    ++ " is in a dirty state!!!\n".toList))
  let st2 := st1.emit (.stdout
    "Do you want to continue anyway (c), manually resolve it (m), hard reset prior (h), or skip (s)?\n".toList)
  let st3 := st2.emit (.stdout "answer (c/m/h/s): ".toList)
  let r := env.readString st3.world
  let st4 : St W := { world := r.2, trace := st3.trace ++ [.readLine] }
  let text := TrimSpace r.1
  if text = [] then ("n o t h i n g".toList, st4) else (text, st4)

/-- The profile fields of the configuration file. -/
structure Profile where
  Name : GoString
  Rootdir : GoString
  Filter : GoString
  deriving DecidableEq, Repr

/-- The configuration file. -/
structure Config where
  ShellCommand : GoString
  Profiles : List Profile
  deriving DecidableEq, Repr

/-- The command-line arguments that `main` reads. -/
structure Args where
  Status : Bool
  Broadcast : Bool
  Rootdir : GoString
  Filter : GoString
  Command : GoString
  Version : Bool
  Profile : GoString
  deriving DecidableEq, Repr

/-- The end of the loop body of `main` in broadcast mode: the announcement,
the command sent to the repository, the closing blank lines. -/
def sendBroadcast {W : Type} (env : Env W) (args : Args) (root : GitRoot) (st : St W) :
    Res W Unit :=
  let st1 := st.emit (.stdout ("Broadcasting ".toList ++ args.Command ++ " to directory ".toList
    ++ root.Path ++ "\n\n".toList))
  match issueCommand env args.Command root.Path false st1 with
  | .fatal msg st2 => .fatal msg st2
  | .panic st2 => .panic st2
  | .ok _ st2 => .ok () (st2.emit (.stderr "\n\n\n".toList))

/-- The body of the loop `for _, root := range roots` of `main`, for one
root. -/
def mainBody {W : Type} (env : Env W) (args : Args) (config : Config) (root : GitRoot)
    (st : St W) : Res W Unit :=
  if args.Status then root.PrettyPrint env st
  else if args.Broadcast then
    match root.isClean env st with
    | .fatal msg st1 => .fatal msg st1
    | .panic st1 => .panic st1
    | .ok clean st1 =>
      if !clean then
        let choice := getDirtyHandleChoice env root st1
        let text := choice.1
        let st2 := choice.2
        if text = "m".toList then
          match issueCommand env config.ShellCommand root.Path false
              (st2.emit (.stdout
                "Manually resolving (press ctl-D to quit, or type 'exit')...\n".toList)) with
          | .fatal msg st3 => .fatal msg st3
          | .panic st3 => .panic st3
          | .ok _ st3 => sendBroadcast env args root st3
        else if text = "h".toList then
          match issueCommand env "git reset --hard".toList root.Path false
              (st2.emit (.stdout "Hard Resetting, then Broadcasting...\n".toList)) with
          | .fatal msg st3 => .fatal msg st3
          | .panic st3 => .panic st3
          | .ok _ st3 => sendBroadcast env args root st3
        else if text = "s".toList then
          .ok () (st2.emit (.stdout "Skipping...\n\n\n".toList))
        else if text ≠ "c".toList then
          .fatal ("No clue what to do with ".toList ++ text ++ ", just skipping...".toList) st2
        else sendBroadcast env args root st2
      else sendBroadcast env args root st1
  else .ok () st

/-- The loop `for _, root := range roots` of `main`. -/
def mainLoop {W : Type} (env : Env W) (args : Args) (config : Config) :
    List GitRoot → St W → Res W Unit
  | [], st => .ok () st
  | root :: roots, st =>
    match mainBody env args config root st with
    | .fatal msg st1 => .fatal msg st1
    | .panic st1 => .panic st1
    | .ok _ st1 => mainLoop env args config roots st1


/-! ## Predicates used in the statements -/

/-- What the callback of `getGitPaths` asks of a path before appending it:
within the depth limit, longer than five characters, ending in `"/.git"`,
and accepted by the filter when there is one. -/
def Kept (rootDir filter path : GoString) : Prop :=
  Count path '/' < maxDepth + Count rootDir '/' ∧ path.length > 5 ∧ lastN path 5 = dotGit ∧
    (filter.length = 0 ∨ isFilterDirInGitPath path filter = some true)

instance (rootDir filter path : GoString) : Decidable (Kept rootDir filter path) := by
  unfold Kept
  infer_instance

/-- A directory tree for the examples: `a/.git`, and a second marker four
levels further down, `a/b/c/d/e/.git`. -/
def deepTree : Root :=
  .dir (.dir "a".toList
    (.dir ".git".toList .nil
      (.dir "b".toList (.dir "c".toList (.dir "d".toList (.dir "e".toList
        (.dir ".git".toList .nil .nil) .nil) .nil) .nil) .nil)) .nil)

/-- A directory tree for the examples: `x/.git` and `y/.git`. -/
def twoRepos : Root :=
  .dir (.dir "x".toList (.dir ".git".toList .nil .nil)
    (.dir "y".toList (.dir ".git".toList .nil .nil) .nil))

/-- The child process that `issueCommand` sets up for a command string. -/
def commandOf (command path : GoString) (returnOutput : Bool) : Cmd :=
  match Split command ' ' with
  | [] => { name := [], args := [], dir := path, capture := returnOutput }
  | name :: args => { name := name, args := args, dir := path, capture := returnOutput }

/-- The fields of a string in the words of the specification: the maximal
runs of characters other than space, tab and newline, none of them empty.
`cur` is the field being read. -/
def specFields : GoString → GoString → List GoString
  | [], cur => if cur = [] then [] else [cur]
  | c :: cs, cur =>
    if c = ' ' ∨ c = '\t' ∨ c = '\n' then
      if cur = [] then specFields cs [] else cur :: specFields cs []
    else specFields cs (cur ++ [c])

/-- A scripted world for the examples: the outputs that the captured
commands will print, in order, and the lines the operator will type, in
order; every command succeeds, and an exhausted script gives the empty
string. -/
def scriptEnv : Env (List GoString × List GoString) where
  run := fun cmd w =>
    if cmd.capture then (some (w.1.headD []), (w.1.tail, w.2)) else (some [], w)
  readString := fun w => (w.2.headD [], (w.1, w.2.tail))

/-- The broadcast of `make` as the command line asks for it. -/
def broadcastArgs : Args :=
  { Status := false, Broadcast := true, Rootdir := [], Filter := [],
    Command := "make test".toList, Version := false, Profile := "p".toList }

/-- A configuration whose shell is `bash`. -/
def bashConfig : Config :=
  { ShellCommand := "bash".toList, Profiles := [] }

/-- The status text of a clean repository. -/
def cleanStatus : GoString :=
  "On branch main\nnothing to commit, working tree clean\n".toList

/-- The status text of a repository with a modified file. -/
def dirtyStatus : GoString :=
  "On branch main\nChanges not staged for commit:\n\tmodified: a.go\n".toList

/-- The cleanliness check of a repository: `git status`, captured, in its
path. -/
def checkEvent (root : GitRoot) : Event :=
  .exec ⟨"git".toList, ["status".toList], root.Path, true⟩

/-- The prompt of `getDirtyHandleChoice`: the warning, the menu, the
question, and the line read. -/
def promptEvents (root : GitRoot) : List Event :=
  [.stdout ("Directory ".toList ++ root.Path ++ " is in a dirty state!!!\n".toList),
   .stdout
    "Do you want to continue anyway (c), manually resolve it (m), hard reset prior (h), or skip (s)?\n".toList,
   .stdout "answer (c/m/h/s): ".toList,
   .readLine]

/-- The broadcast to one repository: the announcement, the broadcast
command run on the terminal in its path, the closing blank lines. -/
def sendEvents (args : Args) (root : GitRoot) : List Event :=
  [.stdout ("Broadcasting ".toList ++ args.Command ++ " to directory ".toList
    ++ root.Path ++ "\n\n".toList),
   .exec (commandOf args.Command root.Path false),
   .stderr "\n\n\n".toList]

/-- A name that a directory listing can hold: not empty, without a
separator, and neither `.` nor `..`. -/
def simpleName (n : GoString) : Bool :=
  n ≠ [] && !n.contains '/' && n ≠ ['.'] && n ≠ ['.', '.']

/-- Every name in the tree is one a directory listing can hold. -/
def namesOk : Entries → Bool
  | .nil => true
  | .file name rest => simpleName name && namesOk rest
  | .dir name children rest => simpleName name && namesOk children && namesOk rest
  | .noread name rest => simpleName name && namesOk rest

/-- Every directory of the tree can be listed. -/
def readable : Entries → Bool
  | .nil => true
  | .file _ rest => readable rest
  | .dir _ children rest => readable children && readable rest
  | .noread _ _ => false

/-- A path element that `filepath.Clean` keeps as it is. -/
def elemOk (e : GoString) : Bool :=
  e ≠ [] && e ≠ ['.'] && e ≠ ['.', '.']

/-- A path written plainly: one or more names separated by single
separators, after an optional leading separator, with no `.` or `..` and no
trailing separator (`/r`, `/home/u/src`, `src/x`; not `/`, `.`, `/r/`). -/
def plainPath (p : GoString) : Bool :=
  match Split p '/' with
  | [] => false
  | e :: es => if e = [] then es ≠ [] && es.all elemOk else (e :: es).all elemOk

/-- The path of the entry reached from `dir` through the given names. -/
def extend (dir : GoString) : List GoString → GoString
  | [] => dir
  | n :: ns => extend (dir ++ '/' :: n) ns

/-- The name `.git`. -/
def gitName : GoString := ['.', 'g', 'i', 't']

/-- The markers of a tree in the words of the specification, for the
entries of the directory `path`: every directory named `.git` whose path
has fewer than `maxDepth` separators more than `rootDir` and that does not
lie inside another directory named `.git`, in listing order. -/
def markersWithin (rootDir : GoString) : GoString → Entries → List GoString
  | _, .nil => []
  | path, .file _ rest => markersWithin rootDir path rest
  | path, .noread name rest =>
    (if name = gitName ∧ Count (path ++ '/' :: name) '/' < maxDepth + Count rootDir '/'
      then [path ++ '/' :: name] else []) ++ markersWithin rootDir path rest
  | path, .dir name children rest =>
    (if name = gitName then
      if Count (path ++ '/' :: name) '/' < maxDepth + Count rootDir '/'
        then [path ++ '/' :: name] else []
     else markersWithin rootDir (path ++ '/' :: name) children)
      ++ markersWithin rootDir path rest

/-- Every name below the root is one a directory listing can hold. -/
def Root.namesOk : Root → Bool
  | .dir entries => Gogirt.namesOk entries
  | _ => true

/-- Every directory at and below the root exists and can be listed. -/
def Root.readable : Root → Bool
  | .dir entries => Gogirt.readable entries
  | .file => true
  | _ => false

/-- The tree with the contents of every directory named `.git` removed. -/
def emptyMarkers : Entries → Entries
  | .nil => .nil
  | .file name rest => .file name (emptyMarkers rest)
  | .noread name rest => .noread name (emptyMarkers rest)
  | .dir name children rest =>
    .dir name (if name = gitName then .nil else emptyMarkers children) (emptyMarkers rest)

/-- The tree below the root with the contents of every directory named
`.git` removed. -/
def Root.emptyMarkers : Root → Root
  | .dir entries => .dir (Gogirt.emptyMarkers entries)
  | fs => fs

/-- A directory tree for the examples: `.git/.git`. -/
def gitInGit : Root :=
  .dir (.dir ".git".toList (.dir ".git".toList .nil .nil) .nil)

/-- A directory tree for the examples: `.git` and `s/.git`. -/
def repoInRepo : Root :=
  .dir (.dir ".git".toList .nil (.dir "s".toList (.dir ".git".toList .nil .nil) .nil))

/-- A directory tree for the examples: `a/.git` and `a/sub/.git`. -/
def nestedRepo : Root :=
  .dir (.dir "a".toList
    (.dir ".git".toList .nil (.dir "sub".toList (.dir ".git".toList .nil .nil) .nil)) .nil)

/-- Entries for the examples: `.git` and `a/.git`, and `a/b/.git` one level
further down. -/
def threeMarkers : Entries :=
  .dir ".git".toList .nil
    (.dir "a".toList
      (.dir ".git".toList .nil (.dir "b".toList (.dir ".git".toList .nil .nil) .nil)) .nil)

/-- Entries for the examples: `a/b/.git`. -/
def twoLevels : Entries :=
  .dir "a".toList (.dir "b".toList (.dir ".git".toList .nil .nil) .nil) .nil

/-- Whether the names lead from the entries of a directory, through
directories, to a directory. -/
def hasDir : Entries → List GoString → Bool
  | _, [] => false
  | .nil, _ :: _ => false
  | .file _ rest, n :: ns => hasDir rest (n :: ns)
  | .noread name rest, n :: ns => (name = n && ns = []) || hasDir rest (n :: ns)
  | .dir name children rest, n :: ns =>
    (name = n && (ns = [] || hasDir children ns)) || hasDir rest (n :: ns)

/-- The tree with the contents removed of every directory whose path the
callback of `getGitPaths` would record; `path` is the directory that holds
the entries. -/
def emptyKept (rootDir filter : GoString) : GoString → Entries → Entries
  | _, .nil => .nil
  | path, .file name rest => .file name (emptyKept rootDir filter path rest)
  | path, .noread name rest => .noread name (emptyKept rootDir filter path rest)
  | path, .dir name children rest =>
    .dir name
      (if Kept rootDir filter (Join path name) then .nil
        else emptyKept rootDir filter (Join path name) children)
      (emptyKept rootDir filter path rest)

/-- The tree below the root with the contents removed of every directory
whose path the callback of `getGitPaths` would record. -/
def Root.emptyKept (rootDir filter : GoString) : Root → Root
  | .dir entries => .dir (Gogirt.emptyKept rootDir filter rootDir entries)
  | fs => fs

/-! ## The walk keeps what the callback keeps -/

theorem walkNames_inv {σ : Type} (fn : WalkFunc σ) (Inv : σ → Prop)
    (hfn : ∀ path info err s, Inv s → Inv (fn path info err s).1) :
    ∀ (es : Entries) (path : GoString) (s : σ), Inv s → Inv (walkNames fn path es s).1 := by
  intro es
  induction es with
  | nil => intro path s h; simpa [walkNames] using h
  | file name rest ih =>
    intro path s h
    have h1 := hfn (Join path name) (some ⟨false⟩) none s h
    rcases hq : fn (Join path name) (some ⟨false⟩) none s with ⟨s1, _ | err⟩
    · rw [hq] at h1
      simpa [walkNames, hq] using ih path s1 h1
    · rw [hq] at h1
      simpa [walkNames, hq] using h1
  | noread name rest ih =>
    intro path s h
    have h1 := hfn (Join path name) (some ⟨true⟩) (some .io) s h
    rcases hq : fn (Join path name) (some ⟨true⟩) (some .io) s with ⟨s1, _ | err⟩
    · rw [hq] at h1
      simpa [walkNames, hq] using ih path s1 h1
    · rw [hq] at h1
      by_cases he : err = .SkipDir
      · simpa [walkNames, hq, he] using ih path s1 h1
      · simpa [walkNames, hq, he] using h1
  | dir name children rest ihc ihr =>
    intro path s h
    have h1 := hfn (Join path name) (some ⟨true⟩) none s h
    rcases hq : fn (Join path name) (some ⟨true⟩) none s with ⟨s1, _ | err⟩
    · rw [hq] at h1
      have h2 := ihc (Join path name) s1 h1
      rcases hc : walkNames fn (Join path name) children s1 with ⟨s2, _ | err2⟩
      · rw [hc] at h2
        simpa [walkNames, hq, hc] using ihr path s2 h2
      · rw [hc] at h2
        by_cases he : err2 = .SkipDir
        · simpa [walkNames, hq, hc, he] using ihr path s2 h2
        · simpa [walkNames, hq, hc, he] using h2
    · rw [hq] at h1
      by_cases he : err = .SkipDir
      · simpa [walkNames, hq, he] using ihr path s1 h1
      · simpa [walkNames, hq, he] using h1

theorem Walk_inv {σ : Type} (fn : WalkFunc σ) (Inv : σ → Prop)
    (hfn : ∀ path info err s, Inv s → Inv (fn path info err s).1)
    (root : GoString) (fs : Root) (s : σ) (h : Inv s) : Inv (Walk root fs fn s).1 := by
  have key : Inv (match fs with
    | .missing => fn root none (some .io) s
    | .file => fn root (some ⟨false⟩) none s
    | .noread => fn root (some ⟨true⟩) (some .io) s
    | .dir entries =>
      match fn root (some ⟨true⟩) none s with
      | (s1, some err) => (s1, some err)
      | (s1, none) => walkNames fn root entries s1).1 := by
    cases fs with
    | missing => exact hfn _ _ _ _ h
    | file => exact hfn _ _ _ _ h
    | noread => exact hfn _ _ _ _ h
    | dir entries =>
      have h1 := hfn root (some ⟨true⟩) none s h
      rcases hq : fn root (some ⟨true⟩) none s with ⟨s1, _ | err⟩
      · rw [hq] at h1
        simpa [hq] using walkNames_inv fn Inv hfn entries root s1 h1
      · rw [hq] at h1
        simpa [hq] using h1
  unfold Walk
  simp only
  split <;> exact key

/-! ## Facts about `Split` and `Count` -/

theorem Split_ne_nil (s : GoString) (sep : Char) : Split s sep ≠ [] := by
  cases s with
  | nil => simp [Split]
  | cons c cs =>
    unfold Split
    split
    · simp
    · split <;> simp

theorem Split_length (s : GoString) (sep : Char) : (Split s sep).length = Count s sep + 1 := by
  induction s with
  | nil => simp [Split, Count]
  | cons c cs ih =>
    unfold Split
    by_cases h : c = sep
    · subst h
      simp [Count] at ih ⊢
      exact ih
    · have hc : Count (c :: cs) sep = Count cs sep := by
        simp [Count, List.count_cons, h]
      rw [if_neg h, hc, ← ih]
      rcases hs : Split cs sep with _ | ⟨piece, pieces⟩
      · exact absurd hs (Split_ne_nil cs sep)
      · simp

theorem Split_append (a b : GoString) (sep : Char) :
    Split (a ++ sep :: b) sep = Split a sep ++ Split b sep := by
  induction a with
  | nil => simp [Split]
  | cons c cs ih =>
    by_cases h : c = sep
    · subst h
      simp [Split, ih]
    · rcases hs : Split cs sep with _ | ⟨piece, pieces⟩
      · exact absurd hs (Split_ne_nil cs sep)
      · simp [Split, h, ih, hs]

theorem Split_no_sep (s : GoString) (sep : Char) (h : sep ∉ s) : Split s sep = [s] := by
  induction s with
  | nil => simp [Split]
  | cons c cs ih =>
    have h1 : c ≠ sep := fun e => h (by simp [e])
    have h2 : sep ∉ cs := fun e => h (by simp [e])
    simp [Split, h1, ih h2]

theorem take_append_lastN (s : GoString) (n : Nat) : s.take (s.length - n) ++ lastN s n = s := by
  simp [lastN]

/-! ## What `getGitPaths` returns -/

theorem gitWalkFn_kept (rootDir filter path : GoString) (info : Option FileInfo)
    (err : Option Error) (s : List GoString) (h : ∀ p ∈ s, Kept rootDir filter p) :
    ∀ p ∈ (gitWalkFn rootDir filter path info err s).1, Kept rootDir filter p := by
  unfold gitWalkFn
  split
  · exact h
  · split
    · exact h
    · rename_i hdepth
      split
      · rename_i hmark
        have hk : (filter.length = 0 ∨ isFilterDirInGitPath path filter = some true) →
            ∀ p ∈ s ++ [path], Kept rootDir filter p := by
          intro hf p hp
          rcases List.mem_append.1 hp with hp | hp
          · exact h p hp
          · have : p = path := by simpa using hp
            subst this
            exact ⟨by omega, hmark.2.1, hmark.2.2, hf⟩
        split
        · rename_i hfl
          exact hk (Or.inl hfl)
        · split
          · exact h
          · rename_i hfd
            exact hk (Or.inr hfd)
          · exact h
      · exact h

theorem getGitPaths_kept (fs : Root) (rootDir filter : GoString) (paths : List GoString)
    (h : getGitPaths fs rootDir filter = .ok paths) : ∀ p ∈ paths, Kept rootDir filter p := by
  have hw := Walk_inv (gitWalkFn rootDir filter) (fun s => ∀ p ∈ s, Kept rootDir filter p)
    (fun path info err s hs => gitWalkFn_kept rootDir filter path info err s hs)
    rootDir fs [] (by simp)
  unfold getGitPaths at h
  rcases hq : Walk rootDir fs (gitWalkFn rootDir filter) [] with ⟨s1, _ | err⟩
  · rw [hq] at h hw
    simp at h
    subst h
    exact hw
  · rw [hq] at h
    simp at h

theorem Count_marker (p : GoString) (hs : lastN p 5 = dotGit) :
    Count p '/' = Count (p.take (p.length - 5)) '/' + 1 := by
  have h := take_append_lastN p 5
  rw [hs] at h
  conv_lhs => rw [← h]
  simp [Count, dotGit, List.count_cons]

theorem makeGitRootsFromPath_spec (paths : List GoString)
    (h : ∀ p ∈ paths, 5 < p.length ∧ lastN p 5 = dotGit) :
    ∃ roots, makeGitRootsFromPath paths = some roots ∧
      roots = paths.map (fun p => (⟨p.take (p.length - 5)⟩ : GitRoot)) := by
  induction paths with
  | nil => exact ⟨[], rfl, rfl⟩
  | cons p ps ih =>
    obtain ⟨roots, hr, hm⟩ := ih (fun q hq => h q (List.mem_cons_of_mem _ hq))
    have hp := (h p (List.mem_cons_self _ _)).1
    refine ⟨⟨p.take (p.length - 5)⟩ :: roots, ?_, by simp [hm]⟩
    simp [makeGitRootsFromPath, hr]
    omega

/-! ## Properties of discovery -/

/-- C10: for every list of marker paths, each longer than five characters
and ending in `"/.git"`, `makeGitRootsFromPath` slices within range and
returns as many roots in the same order, the path of each being the marker
path without its trailing `"/.git"`: putting the segment back gives the
marker path. -/
theorem makeGitRootsFromPath_parent (paths : List GoString)
    (h : ∀ p ∈ paths, 5 < p.length ∧ lastN p 5 = dotGit) :
    ∃ roots, makeGitRootsFromPath paths = some roots ∧ roots.length = paths.length ∧
      roots.map (fun r => r.Path ++ dotGit) = paths := by
  obtain ⟨roots, hr, hm⟩ := makeGitRootsFromPath_spec paths h
  refine ⟨roots, hr, by simp [hm], ?_⟩
  subst hm
  rw [List.map_map]
  conv_rhs => rw [← List.map_id paths]
  apply List.map_congr_left
  intro p hp
  have h2 := take_append_lastN p 5
  rw [(h p hp).2] at h2
  simpa using h2

theorem makeGitRootsFromPath_parent_witness :
    (∀ p ∈ ["/r/a/.git".toList, "/r/bb/.git".toList], 5 < p.length ∧ lastN p 5 = dotGit) ∧
    makeGitRootsFromPath ["/r/a/.git".toList, "/r/bb/.git".toList]
      = some [⟨"/r/a".toList⟩, ⟨"/r/bb".toList⟩] ∧
    ∃ roots, makeGitRootsFromPath ["/r/a/.git".toList, "/r/bb/.git".toList] = some roots ∧
      roots.length = ["/r/a/.git".toList, "/r/bb/.git".toList].length ∧
      roots.map (fun r => r.Path ++ dotGit) = ["/r/a/.git".toList, "/r/bb/.git".toList] :=
  ⟨by decide, by decide, makeGitRootsFromPath_parent _ (by decide)⟩

/-- C2: for every directory tree, root directory and filter, when
`getGitPaths` returns, `makeGitRootsFromPath` turns its result into roots,
and the path of each root has at most `maxDepth` more separators than the
root directory. -/
theorem getGitPaths_depth_bound (fs : Root) (rootDir filter : GoString) (paths : List GoString)
    (h : getGitPaths fs rootDir filter = .ok paths) :
    ∃ roots, makeGitRootsFromPath paths = some roots ∧
      ∀ r ∈ roots, Count r.Path '/' ≤ Count rootDir '/' + maxDepth := by
  have hk := getGitPaths_kept fs rootDir filter paths h
  obtain ⟨roots, hr, hm⟩ := makeGitRootsFromPath_spec paths
    (fun p hp => ⟨(hk p hp).2.1, (hk p hp).2.2.1⟩)
  refine ⟨roots, hr, ?_⟩
  subst hm
  intro r hr
  obtain ⟨p, hp, rfl⟩ := List.mem_map.1 hr
  have h1 := (hk p hp).1
  have h2 := Count_marker p (hk p hp).2.2.1
  simp only
  omega

theorem getGitPaths_depth_bound_witness :
    getGitPaths deepTree "/r".toList [] = .ok ["/r/a/.git".toList] ∧
    ∃ roots, makeGitRootsFromPath ["/r/a/.git".toList] = some roots ∧
      ∀ r ∈ roots, Count r.Path '/' ≤ Count "/r".toList '/' + maxDepth :=
  ⟨by decide, getGitPaths_depth_bound deepTree "/r".toList [] _ (by decide)⟩

theorem getD_before_last (A : List GoString) (g d : GoString) (hA : A ≠ []) :
    some ((A ++ [g]).getD ((A ++ [g]).length - 2) d) = A.getLast? := by
  obtain ⟨B, a, rfl⟩ : ∃ B a, A = B ++ [a] := by
    rcases List.eq_nil_or_concat A with h | ⟨B, a, h⟩
    · exact absurd h hA
    · exact ⟨B, a, by simpa using h⟩
  have hlen : (B ++ [a] ++ [g]).length - 2 = B.length := by simp
  rw [hlen]
  have h1 : (B ++ [a] ++ [g])[B.length]? = some a := by
    rw [List.append_assoc, List.getElem?_append_right (le_refl _)]
    simp
  rw [List.getD_eq_getElem?_getD, h1, List.getLast?_append]
  simp

theorem Split_marker (parent : GoString) :
    Split (parent ++ dotGit) '/' = Split parent '/' ++ [['.', 'g', 'i', 't']] := by
  have h : dotGit = '/' :: ['.', 'g', 'i', 't'] := rfl
  rw [h, Split_append]
  rfl

/-- C3: for every directory tree, root directory and non-empty filter,
every marker path `getGitPaths` keeps is a parent path followed by
`"/.git"`, the last element of the parent path is the name that
`isFilterDirInGitPath` looks up (the last but one element of the marker
path), and that name is one of the comma-separated entries of the
filter. -/
theorem getGitPaths_filter_sound (fs : Root) (rootDir filter : GoString)
    (paths : List GoString) (hf : filter ≠ [])
    (h : getGitPaths fs rootDir filter = .ok paths) :
    ∀ p ∈ paths, ∃ parent name, p = parent ++ dotGit ∧
      (Split parent '/').getLast? = some name ∧
      (Split p '/').getD ((Split p '/').length - 2) [] = name ∧
      isFilterDirInGitPath p filter = some true ∧
      name ∈ Split filter ',' := by
  intro p hp
  obtain ⟨-, -, hs, hfil⟩ := getGitPaths_kept fs rootDir filter paths h p hp
  have hfil : isFilterDirInGitPath p filter = some true := by
    rcases hfil with h0 | h1
    · exact absurd (List.length_eq_zero.1 h0) hf
    · exact h1
  have hpar : p = p.take (p.length - 5) ++ dotGit := by
    have := take_append_lastN p 5
    rw [hs] at this
    exact this.symm
  generalize p.take (p.length - 5) = parent at hpar
  subst hpar
  have hne := Split_ne_nil parent '/'
  have hlast := getD_before_last (Split parent '/') ['.', 'g', 'i', 't'] [] hne
  rw [← Split_marker] at hlast
  refine ⟨parent, _, rfl, hlast.symm, rfl, hfil, ?_⟩
  unfold isFilterDirInGitPath at hfil
  simp only at hfil
  split at hfil
  · simp at hfil
  · simp only [Option.some.injEq, List.any_eq_true, decide_eq_true_eq] at hfil
    obtain ⟨x, hx, hxe⟩ := hfil
    rw [← hxe]
    exact hx

theorem getGitPaths_filter_sound_witness :
    getGitPaths twoRepos "/r".toList "y".toList = .ok ["/r/y/.git".toList] ∧
    makeGitRootsFromPath ["/r/y/.git".toList] = some [⟨"/r/y".toList⟩] ∧
    ∀ p ∈ ["/r/y/.git".toList], ∃ parent name, p = parent ++ dotGit ∧
      (Split parent '/').getLast? = some name ∧
      (Split p '/').getD ((Split p '/').length - 2) [] = name ∧
      isFilterDirInGitPath p "y".toList = some true ∧
      name ∈ Split "y".toList ',' :=
  ⟨by decide, by decide,
    getGitPaths_filter_sound twoRepos "/r".toList "y".toList _ (by decide) (by decide)⟩

/-! ## Facts about `issueCommand` -/

theorem StrJoin_Split (s : GoString) (sep : Char) : StrJoin (Split s sep) sep = s := by
  induction s with
  | nil => simp [Split, StrJoin]
  | cons c cs ih =>
    by_cases h : c = sep
    · subst h
      rcases hs : Split cs c with _ | ⟨piece, pieces⟩
      · exact absurd hs (Split_ne_nil cs c)
      · rw [hs] at ih
        simp [Split, hs, StrJoin, ih]
    · rcases hs : Split cs sep with _ | ⟨piece, pieces⟩
      · exact absurd hs (Split_ne_nil cs sep)
      · rw [hs] at ih
        cases pieces with
        | nil =>
          simp [StrJoin] at ih
          simp [Split, h, hs, StrJoin, ih]
        | cons q qs =>
          simp [StrJoin] at ih
          simp [Split, h, hs, StrJoin, ih]

theorem Split_pieces (s : GoString) (sep : Char) : ∀ piece ∈ Split s sep, sep ∉ piece := by
  induction s with
  | nil => simp [Split]
  | cons c cs ih =>
    by_cases h : c = sep
    · subst h
      intro piece hp
      simp only [Split, if_true, List.mem_cons] at hp
      rcases hp with rfl | hp
      · simp
      · exact ih piece hp
    · rcases hs : Split cs sep with _ | ⟨q, qs⟩
      · exact absurd hs (Split_ne_nil cs sep)
      · rw [hs] at ih
        intro piece hp
        simp only [Split, if_neg h, hs, List.mem_cons] at hp
        rcases hp with rfl | hp
        · have := ih q (by simp)
          simp only [List.mem_cons, not_or]
          exact ⟨fun e => h e.symm, this⟩
        · exact ih piece (by simp [hp])

theorem issueCommand_eq {W : Type} (env : Env W) (command path : GoString)
    (returnOutput : Bool) (st : St W) :
    issueCommand env command path returnOutput st =
      match env.run (commandOf command path returnOutput) st.world with
      | (none, w) =>
        .panic { world := w, trace := st.trace ++ [.exec (commandOf command path returnOutput)] }
      | (some status, w) =>
        .ok (if returnOutput then TrimSpace status else [])
          { world := w, trace := st.trace ++ [.exec (commandOf command path returnOutput)] } := by
  unfold issueCommand commandOf
  rcases hs : Split command ' ' with _ | ⟨name, args⟩
  · exact absurd hs (Split_ne_nil command ' ')
  · rfl

/-! ## Properties of `issueCommand` -/

/-- C8, as amended: for every command string, `issueCommand` cuts the
string at every single space; there is always a first piece, which is the
program, and the other pieces in order are its arguments; no piece holds a
space, and the pieces joined by single spaces give back the command string
(so two spaces in a row give an empty argument, and tabs and newlines do
not separate). The process is started with these, in the given directory. -/
theorem issueCommand_splits_at_spaces {W : Type} (env : Env W) (command path : GoString)
    (returnOutput : Bool) (st : St W) :
    ∃ name args, Split command ' ' = name :: args ∧
      (issueCommand env command path returnOutput st).st.trace =
        st.trace ++ [.exec ⟨name, args, path, returnOutput⟩] ∧
      (∀ piece ∈ name :: args, ' ' ∉ piece) ∧
      StrJoin (name :: args) ' ' = command := by
  rcases hs : Split command ' ' with _ | ⟨name, args⟩
  · exact absurd hs (Split_ne_nil command ' ')
  · refine ⟨name, args, rfl, ?_, ?_, ?_⟩
    · unfold issueCommand
      rw [hs]
      simp only
      rcases env.run _ st.world with ⟨_ | status, w⟩ <;> rfl
    · rw [← hs]
      exact Split_pieces command ' '
    · rw [← hs]
      exact StrJoin_Split command ' '

/-- C8, refuted as stated: for the command `git  status`, written with two
spaces, `issueCommand` starts `git` with the two arguments `""` and
`status`, whereas the whitespace-separated fields after the first are the
single field `status`; for `ls\t-l`, written with a tab, it starts a program
named `ls\t-l` with no arguments. -/
theorem issueCommand_not_whitespace_fields :
    (issueCommand scriptEnv "git  status".toList "/r".toList false ⟨([], []), []⟩).st.trace
      = [.exec ⟨"git".toList, [[], "status".toList], "/r".toList, false⟩] ∧
    specFields "git  status".toList [] = ["git".toList, "status".toList] ∧
    (issueCommand scriptEnv "ls\t-l".toList "/r".toList false ⟨([], []), []⟩).st.trace
      = [.exec ⟨"ls\t-l".toList, [], "/r".toList, false⟩] ∧
    specFields "ls\t-l".toList [] = ["ls".toList, "-l".toList] := by
  decide

/-! ## Facts about the broadcast loop -/

theorem isClean_ok {W : Type} (env : Env W) (root : GitRoot) (st st2 : St W) (clean : Bool)
    (h : root.isClean env st = .ok clean st2) :
    st2.trace = st.trace ++ [checkEvent root] := by
  unfold GitRoot.isClean GitRoot.getStatus at h
  rw [issueCommand_eq] at h
  have hc : commandOf "git status".toList root.Path true
      = ⟨"git".toList, ["status".toList], root.Path, true⟩ := by
    simp [commandOf, Split]
  rw [hc] at h
  rcases hr : env.run ⟨"git".toList, ["status".toList], root.Path, true⟩ st.world
    with ⟨_ | status, w⟩
  · rw [hr] at h
    simp at h
  · rw [hr] at h
    simp only [Res.ok.injEq] at h
    rw [← h.2]
    rfl

theorem getDirtyHandleChoice_trace {W : Type} (env : Env W) (root : GitRoot) (st : St W) :
    (getDirtyHandleChoice env root st).2.trace = st.trace ++ promptEvents root := by
  unfold getDirtyHandleChoice
  simp only [St.emit, promptEvents]
  split <;> simp

theorem getDirtyHandleChoice_text {W : Type} (env : Env W) (root : GitRoot) (st : St W) :
    (getDirtyHandleChoice env root st).1 =
      if TrimSpace (env.readString st.world).1 = [] then "n o t h i n g".toList
      else TrimSpace (env.readString st.world).1 := by
  unfold getDirtyHandleChoice
  simp only [St.emit]
  split <;> simp_all

theorem mainLoop_append {W : Type} (env : Env W) (args : Args) (config : Config)
    (pre post : List GitRoot) (st st1 : St W)
    (h : mainLoop env args config pre st = .ok () st1) :
    mainLoop env args config (pre ++ post) st = mainLoop env args config post st1 := by
  induction pre generalizing st with
  | nil =>
    simp only [mainLoop, Res.ok.injEq, true_and] at h
    subst h
    rfl
  | cons root roots ih =>
    simp only [mainLoop, List.cons_append] at h ⊢
    rcases hb : mainBody env args config root st with ⟨⟨⟩, s⟩ | ⟨msg, s⟩ | s
    · rw [hb] at h
      simp only at h ⊢
      exact ih s h
    · rw [hb] at h
      simp at h
    · rw [hb] at h
      simp at h

theorem Contains_self_append (t b : GoString) : Contains (t ++ b) t = true := by
  cases t with
  | nil => cases b <;> simp [Contains]
  | cons c cs =>
    simp [Contains]

theorem Contains_append_left (a s t : GoString) (h : Contains s t = true) :
    Contains (a ++ s) t = true := by
  induction a with
  | nil => simpa using h
  | cons c cs ih =>
    simp only [List.cons_append, Contains, Bool.or_eq_true]
    exact Or.inr ih

theorem mainBody_dirty {W : Type} (env : Env W) (args : Args) (config : Config)
    (root : GitRoot) (st st2 : St W) (hs : args.Status = false) (hb : args.Broadcast = true)
    (hdirty : root.isClean env st = .ok false st2) :
    mainBody env args config root st =
      let choice := getDirtyHandleChoice env root st2
      if choice.1 = "m".toList then
        match issueCommand env config.ShellCommand root.Path false
            (choice.2.emit (.stdout
              "Manually resolving (press ctl-D to quit, or type 'exit')...\n".toList)) with
        | .fatal msg st3 => .fatal msg st3
        | .panic st3 => .panic st3
        | .ok _ st3 => sendBroadcast env args root st3
      else if choice.1 = "h".toList then
        match issueCommand env "git reset --hard".toList root.Path false
            (choice.2.emit (.stdout "Hard Resetting, then Broadcasting...\n".toList)) with
        | .fatal msg st3 => .fatal msg st3
        | .panic st3 => .panic st3
        | .ok _ st3 => sendBroadcast env args root st3
      else if choice.1 = "s".toList then
        .ok () (choice.2.emit (.stdout "Skipping...\n\n\n".toList))
      else if choice.1 ≠ "c".toList then
        .fatal ("No clue what to do with ".toList ++ choice.1 ++ ", just skipping...".toList)
          choice.2
      else sendBroadcast env args root choice.2 := by
  unfold mainBody
  simp only [hs, hb, hdirty]
  rfl

/-! ## Properties of the broadcast loop -/

/-- C5: for every list of repositories, when the loop reaches a repository
that is dirty and the trimmed line the operator types is none of `c`, `m`,
`h`, `s`, the program stops through `log.Fatal` with a message that
contains the token (`n o t h i n g` for an empty or blank line); the
events of that repository are its cleanliness check and its prompt, the
broadcast command is not run there, and nothing at all happens for the
repositories after it. -/
theorem mainLoop_unrecognized_token_fatal {W : Type} (env : Env W) (args : Args)
    (config : Config) (pre post : List GitRoot) (root : GitRoot) (st st1 st2 : St W)
    (hs : args.Status = false) (hb : args.Broadcast = true)
    (hpre : mainLoop env args config pre st = .ok () st1)
    (hdirty : root.isClean env st1 = .ok false st2)
    (hc : TrimSpace (env.readString st2.world).1 ≠ "c".toList)
    (hm : TrimSpace (env.readString st2.world).1 ≠ "m".toList)
    (hh : TrimSpace (env.readString st2.world).1 ≠ "h".toList)
    (hk : TrimSpace (env.readString st2.world).1 ≠ "s".toList) :
    mainLoop env args config (pre ++ root :: post) st =
      .fatal ("No clue what to do with ".toList ++ (getDirtyHandleChoice env root st2).1
        ++ ", just skipping...".toList) (getDirtyHandleChoice env root st2).2 ∧
    Contains ("No clue what to do with ".toList ++ (getDirtyHandleChoice env root st2).1
        ++ ", just skipping...".toList) (getDirtyHandleChoice env root st2).1 = true ∧
    (getDirtyHandleChoice env root st2).2.trace
      = st1.trace ++ checkEvent root :: promptEvents root ∧
    (TrimSpace (env.readString st2.world).1 = [] →
      (getDirtyHandleChoice env root st2).1 = "n o t h i n g".toList) ∧
    (TrimSpace (env.readString st2.world).1 ≠ [] →
      (getDirtyHandleChoice env root st2).1 = TrimSpace (env.readString st2.world).1) := by
  have htext := getDirtyHandleChoice_text env root st2
  have hne : (getDirtyHandleChoice env root st2).1 ≠ "c".toList ∧
      (getDirtyHandleChoice env root st2).1 ≠ "m".toList ∧
      (getDirtyHandleChoice env root st2).1 ≠ "h".toList ∧
      (getDirtyHandleChoice env root st2).1 ≠ "s".toList := by
    rw [htext]
    split
    · decide
    · exact ⟨hc, hm, hh, hk⟩
  refine ⟨?_, ?_, ?_, ?_, ?_⟩
  · rw [mainLoop_append env args config pre (root :: post) st st1 hpre]
    simp only [mainLoop]
    rw [mainBody_dirty env args config root st1 st2 hs hb hdirty]
    simp only [hne.1, hne.2.1, hne.2.2.1, hne.2.2.2, if_false, ne_eq, not_false_eq_true,
      if_true]
  · rw [List.append_assoc]
    exact Contains_append_left _ _ _ (Contains_self_append _ _)
  · rw [getDirtyHandleChoice_trace, isClean_ok env root st1 st2 false hdirty]
    simp
  · intro h
    rw [htext, if_pos h]
  · intro h
    rw [htext, if_neg h]

theorem mainLoop_unrecognized_token_fatal_witness :
    mainLoop scriptEnv broadcastArgs bashConfig
        ([⟨"/r/a".toList⟩] ++ ⟨"/r/b".toList⟩ :: [⟨"/r/c".toList⟩])
        ⟨([cleanStatus, dirtyStatus, cleanStatus], ["q\n".toList]), []⟩ =
      .fatal ("No clue what to do with ".toList
          ++ (getDirtyHandleChoice scriptEnv ⟨"/r/b".toList⟩
            ⟨([cleanStatus], ["q\n".toList]),
              checkEvent ⟨"/r/a".toList⟩ :: sendEvents broadcastArgs ⟨"/r/a".toList⟩
                ++ [checkEvent ⟨"/r/b".toList⟩]⟩).1
          ++ ", just skipping...".toList)
        (getDirtyHandleChoice scriptEnv ⟨"/r/b".toList⟩
            ⟨([cleanStatus], ["q\n".toList]),
              checkEvent ⟨"/r/a".toList⟩ :: sendEvents broadcastArgs ⟨"/r/a".toList⟩
                ++ [checkEvent ⟨"/r/b".toList⟩]⟩).2 ∧
    (getDirtyHandleChoice scriptEnv ⟨"/r/b".toList⟩
            ⟨([cleanStatus], ["q\n".toList]),
              checkEvent ⟨"/r/a".toList⟩ :: sendEvents broadcastArgs ⟨"/r/a".toList⟩
                ++ [checkEvent ⟨"/r/b".toList⟩]⟩).1 = "q".toList :=
  ⟨(mainLoop_unrecognized_token_fatal scriptEnv broadcastArgs bashConfig
      [⟨"/r/a".toList⟩] [⟨"/r/c".toList⟩] ⟨"/r/b".toList⟩
      ⟨([cleanStatus, dirtyStatus, cleanStatus], ["q\n".toList]), []⟩
      ⟨([dirtyStatus, cleanStatus], ["q\n".toList]),
        checkEvent ⟨"/r/a".toList⟩ :: sendEvents broadcastArgs ⟨"/r/a".toList⟩⟩
      ⟨([cleanStatus], ["q\n".toList]),
        checkEvent ⟨"/r/a".toList⟩ :: sendEvents broadcastArgs ⟨"/r/a".toList⟩
          ++ [checkEvent ⟨"/r/b".toList⟩]⟩
      rfl rfl (by rfl) (by rfl) (by decide) (by decide) (by decide) (by decide)).1,
    by decide⟩

/-- C6: for every list of repositories, when the loop reaches a repository
that is dirty and the trimmed line the operator types is `s`, the events of
that repository are its cleanliness check, its prompt and the line
`Skipping...`: no command is run there after the check, neither the shell,
the reset nor the broadcast command; and the loop goes on with the
repositories after it, by the same function of the remaining list as when
the skipped repository is absent. -/
theorem mainLoop_skip {W : Type} (env : Env W) (args : Args) (config : Config)
    (pre post : List GitRoot) (root : GitRoot) (st st1 st2 : St W)
    (hs : args.Status = false) (hb : args.Broadcast = true)
    (hpre : mainLoop env args config pre st = .ok () st1)
    (hdirty : root.isClean env st1 = .ok false st2)
    (hk : TrimSpace (env.readString st2.world).1 = "s".toList) :
    mainLoop env args config (pre ++ root :: post) st =
      mainLoop env args config post
        ((getDirtyHandleChoice env root st2).2.emit (.stdout "Skipping...\n\n\n".toList)) ∧
    mainLoop env args config (pre ++ post) st = mainLoop env args config post st1 ∧
    ((getDirtyHandleChoice env root st2).2.emit (.stdout "Skipping...\n\n\n".toList)).trace
      = st1.trace ++ checkEvent root ::
          (promptEvents root ++ [.stdout "Skipping...\n\n\n".toList]) ∧
    (∀ cmd, Event.exec cmd ∉ promptEvents root ++ [.stdout "Skipping...\n\n\n".toList]) := by
  have htext := getDirtyHandleChoice_text env root st2
  rw [hk] at htext
  have htok : (getDirtyHandleChoice env root st2).1 = "s".toList := by
    rw [htext]
    decide
  refine ⟨?_, mainLoop_append env args config pre post st st1 hpre, ?_, ?_⟩
  · rw [mainLoop_append env args config pre (root :: post) st st1 hpre]
    simp only [mainLoop]
    rw [mainBody_dirty env args config root st1 st2 hs hb hdirty]
    simp only [htok]
    rfl
  · simp only [St.emit]
    rw [getDirtyHandleChoice_trace, isClean_ok env root st1 st2 false hdirty]
    simp
  · intro cmd
    simp [promptEvents]

theorem mainLoop_skip_witness :
    mainLoop scriptEnv broadcastArgs bashConfig
        ([] ++ ⟨"/r/b".toList⟩ :: [⟨"/r/c".toList⟩])
        ⟨([dirtyStatus, cleanStatus], [" s\n".toList]), []⟩ =
      .ok () ⟨([], []), checkEvent ⟨"/r/b".toList⟩ ::
        (promptEvents ⟨"/r/b".toList⟩ ++ [.stdout "Skipping...\n\n\n".toList]
          ++ checkEvent ⟨"/r/c".toList⟩ :: sendEvents broadcastArgs ⟨"/r/c".toList⟩)⟩ :=
  ((mainLoop_skip scriptEnv broadcastArgs bashConfig [] [⟨"/r/c".toList⟩] ⟨"/r/b".toList⟩
      ⟨([dirtyStatus, cleanStatus], [" s\n".toList]), []⟩
      ⟨([dirtyStatus, cleanStatus], [" s\n".toList]), []⟩
      ⟨([cleanStatus], [" s\n".toList]), [checkEvent ⟨"/r/b".toList⟩]⟩
      rfl rfl rfl (by rfl) (by decide)).1).trans (by rfl)

theorem issueCommand_ok {W : Type} (env : Env W) (command path : GoString) (st : St W)
    (hok : ∀ cmd w, (env.run cmd w).1 ≠ none) :
    ∃ out st1, issueCommand env command path false st = .ok out st1 ∧
      st1.trace = st.trace ++ [.exec (commandOf command path false)] := by
  rw [issueCommand_eq]
  rcases hr : env.run (commandOf command path false) st.world with ⟨_ | status, w⟩
  · exact absurd (by rw [hr]) (hok (commandOf command path false) st.world)
  · exact ⟨_, _, rfl, rfl⟩

theorem sendBroadcast_ok {W : Type} (env : Env W) (args : Args) (root : GitRoot) (st : St W)
    (hok : ∀ cmd w, (env.run cmd w).1 ≠ none) :
    ∃ st1, sendBroadcast env args root st = .ok () st1 ∧
      st1.trace = st.trace ++ sendEvents args root := by
  unfold sendBroadcast
  obtain ⟨out, s2, h2, ht⟩ := issueCommand_ok env args.Command root.Path
    (st.emit (.stdout ("Broadcasting ".toList ++ args.Command ++ " to directory ".toList
      ++ root.Path ++ "\n\n".toList))) hok
  simp only [h2]
  refine ⟨_, rfl, ?_⟩
  simp [St.emit, ht, sendEvents]

/-- C7: for every repository, when every external command succeeds, the
events of the loop body in broadcast mode are fixed by whether the
repository is clean and by the token. Clean: the cleanliness check, then
the broadcast. Dirty with `c`: the check, the prompt, the broadcast. Dirty
with `m`: the check, the prompt, the configured shell run in the path, the
broadcast. Dirty with `h`: the check, the prompt, `git reset --hard` run
in the path, the broadcast. In each case the body returns, with one check,
at most one prompt and the broadcast command run once. -/
theorem mainBody_run_path {W : Type} (env : Env W) (args : Args) (config : Config)
    (root : GitRoot) (st st1 : St W) (clean : Bool)
    (hs : args.Status = false) (hb : args.Broadcast = true)
    (hok : ∀ cmd w, (env.run cmd w).1 ≠ none)
    (hclean : root.isClean env st = .ok clean st1) :
    st1.trace = st.trace ++ [checkEvent root] ∧
    (clean = true → ∃ st', mainBody env args config root st = .ok () st' ∧
      st'.trace = st.trace ++ checkEvent root :: sendEvents args root) ∧
    (clean = false → (getDirtyHandleChoice env root st1).1 = "c".toList →
      ∃ st', mainBody env args config root st = .ok () st' ∧
        st'.trace = st.trace ++ checkEvent root :: (promptEvents root ++ sendEvents args root)) ∧
    (clean = false → (getDirtyHandleChoice env root st1).1 = "m".toList →
      ∃ st', mainBody env args config root st = .ok () st' ∧
        st'.trace = st.trace ++ checkEvent root :: (promptEvents root ++
          [.stdout "Manually resolving (press ctl-D to quit, or type 'exit')...\n".toList,
           .exec (commandOf config.ShellCommand root.Path false)] ++ sendEvents args root)) ∧
    (clean = false → (getDirtyHandleChoice env root st1).1 = "h".toList →
      ∃ st', mainBody env args config root st = .ok () st' ∧
        st'.trace = st.trace ++ checkEvent root :: (promptEvents root ++
          [.stdout "Hard Resetting, then Broadcasting...\n".toList,
           .exec ⟨"git".toList, ["reset".toList, "--hard".toList], root.Path, false⟩]
          ++ sendEvents args root)) := by
  have hcheck := isClean_ok env root st st1 clean hclean
  refine ⟨hcheck, ?_, ?_, ?_, ?_⟩
  · intro hc
    subst hc
    obtain ⟨s', h1, h2⟩ := sendBroadcast_ok env args root st1 hok
    refine ⟨s', ?_, by simp [h2, hcheck]⟩
    unfold mainBody
    simp only [hs, hb, hclean]
    exact h1
  · intro hc htok
    subst hc
    obtain ⟨s', h1, h2⟩ := sendBroadcast_ok env args root (getDirtyHandleChoice env root st1).2 hok
    refine ⟨s', ?_, by simp [h2, hcheck, getDirtyHandleChoice_trace]⟩
    rw [mainBody_dirty env args config root st st1 hs hb hclean]
    simp only [htok]
    exact h1
  · intro hc htok
    subst hc
    obtain ⟨out, s3, h3, ht3⟩ := issueCommand_ok env config.ShellCommand root.Path
      ((getDirtyHandleChoice env root st1).2.emit (.stdout
        "Manually resolving (press ctl-D to quit, or type 'exit')...\n".toList)) hok
    obtain ⟨s', h1, h2⟩ := sendBroadcast_ok env args root s3 hok
    refine ⟨s', ?_, by simp [h2, ht3, St.emit, hcheck, getDirtyHandleChoice_trace]⟩
    rw [mainBody_dirty env args config root st st1 hs hb hclean]
    simp only [htok, h3]
    exact h1
  · intro hc htok
    subst hc
    obtain ⟨out, s3, h3, ht3⟩ := issueCommand_ok env "git reset --hard".toList root.Path
      ((getDirtyHandleChoice env root st1).2.emit (.stdout
        "Hard Resetting, then Broadcasting...\n".toList)) hok
    obtain ⟨s', h1, h2⟩ := sendBroadcast_ok env args root s3 hok
    have hcmd : commandOf "git reset --hard".toList root.Path false
        = ⟨"git".toList, ["reset".toList, "--hard".toList], root.Path, false⟩ := by
      simp [commandOf, Split]
    rw [hcmd] at ht3
    refine ⟨s', ?_, by simp [h2, ht3, St.emit, hcheck, getDirtyHandleChoice_trace]⟩
    rw [mainBody_dirty env args config root st st1 hs hb hclean]
    simp only [htok, h3]
    exact h1

theorem mainBody_run_path_witness :
    ∃ st', mainBody scriptEnv broadcastArgs bashConfig ⟨"/r/b".toList⟩
        ⟨([dirtyStatus], ["h\n".toList]), []⟩ = .ok () st' ∧
      st'.trace = [] ++ checkEvent ⟨"/r/b".toList⟩ :: (promptEvents ⟨"/r/b".toList⟩ ++
        [.stdout "Hard Resetting, then Broadcasting...\n".toList,
         .exec ⟨"git".toList, ["reset".toList, "--hard".toList], "/r/b".toList, false⟩]
        ++ sendEvents broadcastArgs ⟨"/r/b".toList⟩) :=
  (mainBody_run_path scriptEnv broadcastArgs bashConfig ⟨"/r/b".toList⟩
    ⟨([dirtyStatus], ["h\n".toList]), []⟩
    ⟨([], ["h\n".toList]), [checkEvent ⟨"/r/b".toList⟩]⟩ false rfl rfl
    (by intro cmd w; simp only [scriptEnv]; split <;> simp)
    (by rfl)).2.2.2.2 rfl (by decide)

/-! ## Plain paths and `Join` -/

theorem cleanElems_ok (rooted : Bool) (es out : List GoString)
    (h : ∀ e ∈ es, elemOk e = true) : cleanElems rooted es out = out ++ es := by
  induction es generalizing out with
  | nil => simp [cleanElems]
  | cons e es ih =>
    have he := h e (List.mem_cons_self _ _)
    simp only [elemOk, Bool.and_eq_true, decide_eq_true_eq, ne_eq] at he
    unfold cleanElems
    rw [if_neg (by tauto), if_neg (by tauto)]
    rw [ih _ (fun x hx => h x (List.mem_cons_of_mem _ hx))]
    simp

theorem StrJoin_cons (e : GoString) (es : List GoString) (sep : Char) (h : es ≠ []) :
    StrJoin (e :: es) sep = e ++ sep :: StrJoin es sep := by
  cases es with
  | nil => exact absurd rfl h
  | cons x xs => rfl

theorem Clean_plain (p : GoString) (h : plainPath p = true) : Clean p = p := by
  cases p with
  | nil => simp [plainPath, Split] at h
  | cons c cs =>
    unfold Clean
    rw [if_neg (by simp)]
    simp only [List.head?_cons, Option.some.injEq]
    by_cases hc : c = '/'
    · subst hc
      unfold plainPath at h
      simp only [Split, if_true] at h ⊢
      simp only [Bool.and_eq_true, decide_eq_true_eq, List.all_eq_true] at h
      have h1 : cleanElems true ([] :: Split cs '/') [] = Split cs '/' := by
        unfold cleanElems
        rw [if_pos (Or.inl rfl), cleanElems_ok _ _ _ h.2]
        simp
      simp [h1, StrJoin_Split]
    · unfold plainPath at h
      rcases hs : Split (c :: cs) '/' with _ | ⟨e, es⟩
      · exact absurd hs (Split_ne_nil _ _)
      · rw [hs] at h
        have he : e ≠ [] := by
          intro he
          subst he
          simp only [Split, if_neg hc] at hs
          rcases hq : Split cs '/' with _ | ⟨q, qs⟩
          · exact absurd hq (Split_ne_nil _ _)
          · rw [hq] at hs
            simp at hs
        simp only [if_neg he, List.all_eq_true] at h
        have h1 : cleanElems false (e :: es) [] = e :: es := by
          rw [cleanElems_ok _ _ _ h]
          simp
        have h2 : StrJoin (e :: es) '/' = c :: cs := by
          rw [← hs]
          exact StrJoin_Split _ _
        simp [hc, hs, h1, h2]

theorem simpleName_no_sep (n : GoString) (h : simpleName n = true) : '/' ∉ n := by
  simp only [simpleName, Bool.and_eq_true, Bool.not_eq_true', decide_eq_true_eq] at h
  have := h.1.1.2
  intro hm
  have hc : n.contains '/' = true := by simpa using hm
  rw [hc] at this
  exact absurd this (by simp)

theorem simpleName_elemOk (n : GoString) (h : simpleName n = true) : elemOk n = true := by
  simp only [simpleName, Bool.and_eq_true, Bool.not_eq_true', decide_eq_true_eq] at h
  simp [elemOk, h.1.1.1, h.1.2, h.2]

theorem plainPath_ne_nil (p : GoString) (h : plainPath p = true) : p ≠ [] := by
  intro hp
  subst hp
  simp [plainPath, Split] at h

theorem plainPath_append (p n : GoString) (hp : plainPath p = true)
    (hn : simpleName n = true) : plainPath (p ++ '/' :: n) = true := by
  unfold plainPath at hp ⊢
  rw [Split_append, Split_no_sep n '/' (simpleName_no_sep n hn)]
  have hn2 := simpleName_elemOk n hn
  rcases hs : Split p '/' with _ | ⟨e, es⟩
  · exact absurd hs (Split_ne_nil _ _)
  · rw [hs] at hp
    simp only [List.cons_append]
    by_cases he : e = []
    · simp only [if_pos he, Bool.and_eq_true, decide_eq_true_eq, List.all_eq_true] at hp ⊢
      refine ⟨by simp, ?_⟩
      intro x hx
      rcases List.mem_append.1 hx with hx | hx
      · exact hp.2 x hx
      · simp only [List.mem_singleton] at hx
        rw [hx]
        exact hn2
    · simp only [if_neg he, List.all_eq_true] at hp ⊢
      intro x hx
      rw [← List.cons_append] at hx
      rcases List.mem_append.1 hx with hx | hx
      · exact hp x hx
      · simp only [List.mem_singleton] at hx
        rw [hx]
        exact hn2

theorem Join_plain (p n : GoString) (hp : plainPath p = true) (hn : simpleName n = true) :
    Join p n = p ++ '/' :: n := by
  unfold Join
  rw [if_pos (plainPath_ne_nil p hp)]
  exact Clean_plain _ (plainPath_append p n hp hn)

theorem Count_append_name (p n : GoString) (hn : simpleName n = true) :
    Count (p ++ '/' :: n) '/' = Count p '/' + 1 := by
  have h := simpleName_no_sep n hn
  simp [Count, List.count_cons, List.count_eq_zero_of_not_mem h]

theorem lastN_append_dotGit (p : GoString) : lastN (p ++ dotGit) 5 = dotGit := by
  have h : (p ++ dotGit).length - 5 = p.length := by simp [dotGit]
  unfold lastN
  rw [h, List.drop_left]

theorem lastN_name (p n : GoString) (hn : '/' ∉ n) (h : lastN (p ++ '/' :: n) 5 = dotGit) :
    n = gitName := by
  have h1 := take_append_lastN (p ++ '/' :: n) 5
  rw [h] at h1
  have h2 := congrArg (fun s => Split s '/') h1
  simp only at h2
  have hd : dotGit = '/' :: gitName := rfl
  rw [hd, Split_append, Split_append, Split_no_sep n '/' hn,
    Split_no_sep gitName '/' (by decide)] at h2
  have h3 := congrArg List.getLast? h2
  simp [List.getLast?_append] at h3
  exact h3.symm

theorem extend_append (dir : GoString) (names : List GoString) (n : GoString) :
    extend dir (names ++ [n]) = extend dir names ++ '/' :: n := by
  induction names generalizing dir with
  | nil => rfl
  | cons m ms ih => simp [extend, ih]

theorem plainPath_extend (dir : GoString) (names : List GoString) (hd : plainPath dir = true)
    (hn : ∀ n ∈ names, simpleName n = true) : plainPath (extend dir names) = true := by
  induction names generalizing dir with
  | nil => exact hd
  | cons m ms ih =>
    exact ih _ (plainPath_append dir m hd (hn m (List.mem_cons_self _ _)))
      (fun n h => hn n (List.mem_cons_of_mem _ h))

theorem Count_extend (dir : GoString) (names : List GoString)
    (hn : ∀ n ∈ names, simpleName n = true) :
    Count (extend dir names) '/' = Count dir '/' + names.length := by
  induction names generalizing dir with
  | nil => rfl
  | cons m ms ih =>
    simp only [extend, List.length_cons]
    rw [ih _ (fun n h => hn n (List.mem_cons_of_mem _ h)),
      Count_append_name dir m (hn m (List.mem_cons_self _ _))]
    omega

/-! ## The walk on the directories it enters -/

theorem walkNames_inv_on {σ : Type} (fn : WalkFunc σ) (P : GoString → Prop) (Inv : σ → Prop)
    (hstep : ∀ path name info err s, P path → simpleName name = true → Inv s →
      Inv (fn (Join path name) info err s).1)
    (hdesc : ∀ path name s, P path → simpleName name = true → Inv s →
      (fn (Join path name) (some ⟨true⟩) none s).2 = none → P (Join path name)) :
    ∀ (es : Entries) (path : GoString) (s : σ), namesOk es = true → P path → Inv s →
      Inv (walkNames fn path es s).1 := by
  intro es
  induction es with
  | nil => intro path s _ _ h; simpa [walkNames] using h
  | file name rest ih =>
    intro path s hn hp h
    simp only [namesOk, Bool.and_eq_true] at hn
    have h1 := hstep path name (some ⟨false⟩) none s hp hn.1 h
    rcases hq : fn (Join path name) (some ⟨false⟩) none s with ⟨s1, _ | err⟩
    · rw [hq] at h1
      simpa [walkNames, hq] using ih path s1 hn.2 hp h1
    · rw [hq] at h1
      simpa [walkNames, hq] using h1
  | noread name rest ih =>
    intro path s hn hp h
    simp only [namesOk, Bool.and_eq_true] at hn
    have h1 := hstep path name (some ⟨true⟩) (some .io) s hp hn.1 h
    rcases hq : fn (Join path name) (some ⟨true⟩) (some .io) s with ⟨s1, _ | err⟩
    · rw [hq] at h1
      simpa [walkNames, hq] using ih path s1 hn.2 hp h1
    · rw [hq] at h1
      by_cases he : err = .SkipDir
      · simpa [walkNames, hq, he] using ih path s1 hn.2 hp h1
      · simpa [walkNames, hq, he] using h1
  | dir name children rest ihc ihr =>
    intro path s hn hp h
    simp only [namesOk, Bool.and_eq_true] at hn
    have h1 := hstep path name (some ⟨true⟩) none s hp hn.1.1 h
    have hd := hdesc path name s hp hn.1.1 h
    rcases hq : fn (Join path name) (some ⟨true⟩) none s with ⟨s1, _ | err⟩
    · rw [hq] at h1 hd
      have h2 := ihc (Join path name) s1 hn.1.2 (hd rfl) h1
      rcases hc : walkNames fn (Join path name) children s1 with ⟨s2, _ | err2⟩
      · rw [hc] at h2
        simpa [walkNames, hq, hc] using ihr path s2 hn.2 hp h2
      · rw [hc] at h2
        by_cases he : err2 = .SkipDir
        · simpa [walkNames, hq, hc, he] using ihr path s2 hn.2 hp h2
        · simpa [walkNames, hq, hc, he] using h2
    · rw [hq] at h1
      by_cases he : err = .SkipDir
      · simpa [walkNames, hq, he] using ihr path s1 hn.2 hp h1
      · simpa [walkNames, hq, he] using h1

theorem gitWalkFn_cases (rootDir filter path : GoString) (info : Option FileInfo)
    (err : Option Error) (s : List GoString) :
    (∃ e, gitWalkFn rootDir filter path info err s = (s, e)) ∨
      gitWalkFn rootDir filter path info err s = (s ++ [path], some .SkipDir) := by
  unfold gitWalkFn
  repeat' split
  all_goals simp

theorem gitWalkFn_state (rootDir filter path : GoString) (info : Option FileInfo)
    (err : Option Error) (s : List GoString) :
    (gitWalkFn rootDir filter path info err s).1 = s ∨
      (gitWalkFn rootDir filter path info err s).1 = s ++ [path] := by
  rcases gitWalkFn_cases rootDir filter path info err s with ⟨e, h⟩ | h <;> rw [h] <;> simp

theorem gitWalkFn_none (rootDir filter path : GoString) (info : Option FileInfo)
    (err : Option Error) (s : List GoString)
    (h : (gitWalkFn rootDir filter path info err s).2 = none) :
    (gitWalkFn rootDir filter path info err s).1 = s := by
  rcases gitWalkFn_cases rootDir filter path info err s with ⟨e, h1⟩ | h1
  · rw [h1]
  · rw [h1] at h
    simp at h

theorem Walk_fst {σ : Type} (root : GoString) (fs : Root) (fn : WalkFunc σ) (s : σ) :
    (Walk root fs fn s).1 = (match fs with
      | .missing => fn root none (some .io) s
      | .file => fn root (some ⟨false⟩) none s
      | .noread => fn root (some ⟨true⟩) (some .io) s
      | .dir entries =>
        match fn root (some ⟨true⟩) none s with
        | (s1, some err) => (s1, some err)
        | (s1, none) => walkNames fn root entries s1).1 := by
  unfold Walk
  simp only
  split <;> rfl

theorem getGitPaths_ok (fs : Root) (rootDir filter : GoString) (paths : List GoString)
    (h : getGitPaths fs rootDir filter = .ok paths) :
    paths = (Walk rootDir fs (gitWalkFn rootDir filter) []).1 := by
  unfold getGitPaths at h
  rcases hq : Walk rootDir fs (gitWalkFn rootDir filter) [] with ⟨s1, _ | err⟩
  · rw [hq] at h
    simp at h
    exact h.symm
  · rw [hq] at h
    simp at h

theorem gitWalkFn_marker (rootDir path : GoString) (s : List GoString) (hp : path ≠ []) :
    (gitWalkFn rootDir [] (path ++ dotGit) (some ⟨true⟩) none s).2 = some .SkipDir := by
  have hl : (path ++ dotGit).length > 5 := by
    have := List.length_pos.2 hp
    simp [dotGit]
    omega
  have hs := lastN_append_dotGit path
  unfold gitWalkFn
  simp only [Option.isSome_none, Bool.false_eq_true, if_false, Option.elim, hl, hs, true_and,
    and_self, if_true, List.length_nil]
  split <;> rfl

/-- Every path `getGitPaths` returns from a plainly written root directory
is an entry reached from the root directory through names of the tree, the
last one apart none of them `.git` when no filter is set; or else the root
directory itself is the one path returned. -/
theorem getGitPaths_shape (fs : Root) (rootDir filter : GoString) (paths : List GoString)
    (hp : plainPath rootDir = true) (hn : fs.namesOk = true)
    (h : getGitPaths fs rootDir filter = .ok paths) :
    paths = [rootDir] ∨ ∀ p ∈ paths, ∃ names last,
      (∀ n ∈ names, simpleName n = true ∧ (filter = [] → n ≠ gitName)) ∧
      simpleName last = true ∧ p = extend rootDir names ++ '/' :: last := by
  have hw := walkNames_inv_on (gitWalkFn rootDir filter)
    (fun path => ∃ names, (∀ n ∈ names, simpleName n = true ∧ (filter = [] → n ≠ gitName)) ∧
      path = extend rootDir names)
    (fun s => ∀ p ∈ s, ∃ names last,
      (∀ n ∈ names, simpleName n = true ∧ (filter = [] → n ≠ gitName)) ∧
      simpleName last = true ∧ p = extend rootDir names ++ '/' :: last)
    (by
      rintro path name info err s ⟨names, hnames, rfl⟩ hname hs p hmem
      have hpl := plainPath_extend rootDir names hp (fun n h => (hnames n h).1)
      rw [Join_plain _ _ hpl hname] at hmem
      rcases gitWalkFn_state rootDir filter (extend rootDir names ++ '/' :: name) info err s
        with h1 | h1
      · rw [h1] at hmem
        exact hs p hmem
      · rw [h1] at hmem
        rcases List.mem_append.1 hmem with hm | hm
        · exact hs p hm
        · simp only [List.mem_singleton] at hm
          exact ⟨names, name, hnames, hname, hm⟩)
    (by
      rintro path name s ⟨names, hnames, rfl⟩ hname - hnone
      have hpl := plainPath_extend rootDir names hp (fun n h => (hnames n h).1)
      rw [Join_plain _ _ hpl hname] at hnone ⊢
      refine ⟨names ++ [name], ?_, (extend_append _ _ _).symm⟩
      intro n hmem
      rcases List.mem_append.1 hmem with hm | hm
      · exact hnames n hm
      · simp only [List.mem_singleton] at hm
        subst hm
        refine ⟨hname, ?_⟩
        intro hf hg
        subst hf hg
        have := gitWalkFn_marker rootDir (extend rootDir names) s (plainPath_ne_nil _ hpl)
        have hd : dotGit = '/' :: gitName := rfl
        rw [hd, hnone] at this
        simp at this)
  have hone : ∀ info err, (gitWalkFn rootDir filter rootDir info err []).1 = [] ∨
      (gitWalkFn rootDir filter rootDir info err []).1 = [rootDir] := by
    intro info err
    simpa using gitWalkFn_state rootDir filter rootDir info err []
  have hfin : ∀ s1 : List GoString, s1 = [] ∨ s1 = [rootDir] →
      s1 = [rootDir] ∨ ∀ p ∈ s1, ∃ names last,
        (∀ n ∈ names, simpleName n = true ∧ (filter = [] → n ≠ gitName)) ∧
        simpleName last = true ∧ p = extend rootDir names ++ '/' :: last := by
    rintro s1 (h1 | h1)
    · subst h1
      exact Or.inr (by simp)
    · exact Or.inl h1
  rw [getGitPaths_ok fs rootDir filter paths h, Walk_fst]
  cases fs with
  | missing => exact hfin _ (hone _ _)
  | file => exact hfin _ (hone _ _)
  | noread => exact hfin _ (hone _ _)
  | dir entries =>
    rcases hq : gitWalkFn rootDir filter rootDir (some ⟨true⟩) none [] with ⟨s1, _ | e⟩
    · have h0 : s1 = [] := by
        have := gitWalkFn_none rootDir filter rootDir (some ⟨true⟩) none [] (by rw [hq])
        rw [hq] at this
        exact this
      subst h0
      exact Or.inr (hw entries rootDir [] hn ⟨[], by simp, rfl⟩ (by simp))
    · have h1 := hone (some ⟨true⟩) none
      rw [hq] at h1
      exact hfin s1 h1

theorem walkNames_emptyMarkers (rootDir : GoString) :
    ∀ (es : Entries) (path : GoString) (s : List GoString), namesOk es = true →
      plainPath path = true →
      walkNames (gitWalkFn rootDir []) path (emptyMarkers es) s
        = walkNames (gitWalkFn rootDir []) path es s := by
  intro es
  induction es with
  | nil => intro path s _ _; rfl
  | file name rest ih =>
    intro path s hn hp
    simp only [namesOk, Bool.and_eq_true] at hn
    simp only [emptyMarkers, walkNames]
    rcases gitWalkFn rootDir [] (Join path name) (some ⟨false⟩) none s with ⟨s1, _ | err⟩
    · exact ih path s1 hn.2 hp
    · rfl
  | noread name rest ih =>
    intro path s hn hp
    simp only [namesOk, Bool.and_eq_true] at hn
    simp only [emptyMarkers, walkNames]
    rcases gitWalkFn rootDir [] (Join path name) (some ⟨true⟩) (some .io) s with ⟨s1, _ | err⟩
    · exact ih path s1 hn.2 hp
    · simp only
      split
      · exact ih path s1 hn.2 hp
      · rfl
  | dir name children rest ihc ihr =>
    intro path s hn hp
    simp only [namesOk, Bool.and_eq_true] at hn
    simp only [emptyMarkers, walkNames]
    rcases hq : gitWalkFn rootDir [] (Join path name) (some ⟨true⟩) none s with ⟨s1, _ | err⟩
    · have hne : name ≠ gitName := by
        intro hg
        subst hg
        rw [Join_plain _ _ hp hn.1.1] at hq
        have := gitWalkFn_marker rootDir path s (plainPath_ne_nil _ hp)
        have hd : dotGit = '/' :: gitName := rfl
        rw [hd, hq] at this
        simp at this
      simp only [if_neg hne]
      have hp2 : plainPath (Join path name) = true := by
        rw [Join_plain _ _ hp hn.1.1]
        exact plainPath_append _ _ hp hn.1.1
      rw [ihc (Join path name) s1 hn.1.2 hp2]
      rcases walkNames (gitWalkFn rootDir []) (Join path name) children s1 with ⟨s2, _ | err2⟩
      · exact ihr path s2 hn.2 hp
      · simp only
        split
        · exact ihr path s2 hn.2 hp
        · rfl
    · simp only
      split
      · exact ihr path s1 hn.2 hp
      · rfl

theorem gitWalkFn_kept_dir (rootDir filter path : GoString) (s : List GoString)
    (h : Kept rootDir filter path) :
    gitWalkFn rootDir filter path (some ⟨true⟩) none s = (s ++ [path], some .SkipDir) := by
  obtain ⟨h1, h2, h3, h4⟩ := h
  unfold gitWalkFn
  simp only [Option.isSome_none, Bool.false_eq_true, if_false, ge_iff_le, Nat.not_le.2 h1,
    Option.elim, h2, h3, true_and, and_self, if_true]
  rcases h4 with h4 | h4
  · rw [if_pos h4]
  · rw [h4]
    split <;> rfl

theorem walkNames_emptyKept (rootDir filter : GoString) :
    ∀ (es : Entries) (path : GoString) (s : List GoString),
      walkNames (gitWalkFn rootDir filter) path (emptyKept rootDir filter path es) s
        = walkNames (gitWalkFn rootDir filter) path es s := by
  intro es
  induction es with
  | nil => intro path s; rfl
  | file name rest ih =>
    intro path s
    simp only [emptyKept, walkNames]
    rcases gitWalkFn rootDir filter (Join path name) (some ⟨false⟩) none s with ⟨s1, _ | err⟩
    · exact ih path s1
    · rfl
  | noread name rest ih =>
    intro path s
    simp only [emptyKept, walkNames]
    rcases gitWalkFn rootDir filter (Join path name) (some ⟨true⟩) (some .io) s
      with ⟨s1, _ | err⟩
    · exact ih path s1
    · simp only
      split
      · exact ih path s1
      · rfl
  | dir name children rest ihc ihr =>
    intro path s
    simp only [emptyKept, walkNames]
    by_cases hk : Kept rootDir filter (Join path name)
    · rw [gitWalkFn_kept_dir rootDir filter (Join path name) s hk]
      simp only [if_true]
      exact ihr path _
    · rw [if_neg hk]
      rcases gitWalkFn rootDir filter (Join path name) (some ⟨true⟩) none s with ⟨s1, _ | err⟩
      · simp only
        rw [ihc (Join path name) s1]
        rcases walkNames (gitWalkFn rootDir filter) (Join path name) children s1
          with ⟨s2, _ | err2⟩
        · exact ihr path s2
        · simp only
          split
          · exact ihr path s2
          · rfl
      · simp only
        split
        · exact ihr path s1
        · rfl

/-- C9, as amended: for every directory tree, root directory and filter,
the walk does not look beneath a directory whose path it records:
`getGitPaths` gives the same result when the contents of every such
directory are removed. For a root directory written plainly and no filter
that holds of every directory named `.git`: the result is the same when
the contents of every directory named `.git` are removed, and every path
returned is the root directory itself or is reached from the root
directory through names none of which is `.git`, followed by `"/.git"`. -/
theorem getGitPaths_marker_not_entered (fs : Root) (rootDir filter : GoString) :
    getGitPaths (fs.emptyKept rootDir filter) rootDir filter = getGitPaths fs rootDir filter ∧
    (plainPath rootDir = true → fs.namesOk = true →
      getGitPaths fs.emptyMarkers rootDir [] = getGitPaths fs rootDir [] ∧
      ∀ paths, getGitPaths fs rootDir [] = .ok paths →
        ∀ p ∈ paths, p = rootDir ∨ ∃ names,
          (∀ n ∈ names, simpleName n = true ∧ n ≠ gitName) ∧
          p = extend rootDir names ++ dotGit) := by
  refine ⟨?_, fun hp hn => ⟨?_, ?_⟩⟩
  · cases fs with
    | missing => rfl
    | file => rfl
    | noread => rfl
    | dir entries =>
      simp only [Root.emptyKept, getGitPaths, Walk]
      rcases gitWalkFn rootDir filter rootDir (some ⟨true⟩) none [] with ⟨s1, _ | err⟩
      · simp only
        rw [walkNames_emptyKept rootDir filter entries rootDir s1]
      · rfl
  · cases fs with
    | missing => rfl
    | file => rfl
    | noread => rfl
    | dir entries =>
      simp only [Root.namesOk] at hn
      simp only [Root.emptyMarkers, getGitPaths, Walk]
      rcases gitWalkFn rootDir [] rootDir (some ⟨true⟩) none [] with ⟨s1, _ | err⟩
      · simp only
        rw [walkNames_emptyMarkers rootDir entries rootDir s1 hn hp]
      · rfl
  · intro paths h p hmem
    have hk := getGitPaths_kept fs rootDir [] paths h p hmem
    rcases getGitPaths_shape fs rootDir [] paths hp hn h with h1 | h1
    · rw [h1] at hmem
      exact Or.inl (by simpa using hmem)
    · obtain ⟨names, last, hnames, hlast, rfl⟩ := h1 p hmem
      have hg := lastN_name _ last (simpleName_no_sep last hlast) hk.2.2.1
      subst hg
      exact Or.inr ⟨names, fun n hm => ⟨(hnames n hm).1, (hnames n hm).2 rfl⟩, rfl⟩

theorem getGitPaths_marker_not_entered_witness :
    getGitPaths gitInGit "/r".toList [] = .ok ["/r/.git".toList] ∧
    getGitPaths gitInGit.emptyMarkers "/r".toList [] = getGitPaths gitInGit "/r".toList [] ∧
    gitInGit.emptyKept "/r".toList [] = gitInGit.emptyMarkers ∧
    getGitPaths (gitInGit.emptyKept "/r".toList []) "/r".toList []
      = getGitPaths gitInGit "/r".toList [] :=
  ⟨by decide,
    ((getGitPaths_marker_not_entered gitInGit "/r".toList []).2 (by decide) (by decide)).1,
    by decide,
    (getGitPaths_marker_not_entered gitInGit "/r".toList []).1⟩

/-- C9, refuted as stated: with the filter `.git`, the walk from `/r` enters
`/r/.git`, whose parent `r` the filter rejects, and returns `/r/.git/.git`,
which it does not when the contents of `/r/.git` are removed; without a
filter, the walk from `.` enters `.git`, a path too short to be a marker,
and returns `.git/.git`. -/
theorem getGitPaths_enters_marker :
    getGitPaths gitInGit "/r".toList ".git".toList = .ok ["/r/.git/.git".toList] ∧
    getGitPaths gitInGit.emptyMarkers "/r".toList ".git".toList = .ok [] ∧
    getGitPaths gitInGit ".".toList [] = .ok [".git/.git".toList] := by
  decide

theorem take_append_dotGit (q : GoString) :
    (q ++ dotGit).take ((q ++ dotGit).length - 5) = q := by
  have h : (q ++ dotGit).length - 5 = q.length := by simp [dotGit]
  rw [h, List.take_left]

/-- The working directory of every repository found from a plainly
written root directory is the root directory or a directory directly in
it, unless the root directory itself is the one marker found. -/
theorem getGitPaths_roots_near (fs : Root) (rootDir filter : GoString)
    (paths : List GoString) (hp : plainPath rootDir = true) (hn : fs.namesOk = true)
    (h : getGitPaths fs rootDir filter = .ok paths) :
    paths = [rootDir] ∨ ∀ p ∈ paths, p.take (p.length - 5) = rootDir ∨
      ∃ n, simpleName n = true ∧ p.take (p.length - 5) = rootDir ++ '/' :: n := by
  rcases getGitPaths_shape fs rootDir filter paths hp hn h with h1 | h1
  · exact Or.inl h1
  · refine Or.inr ?_
    intro p hmem
    have hk := getGitPaths_kept fs rootDir filter paths h p hmem
    obtain ⟨names, last, hnames, hlast, rfl⟩ := h1 p hmem
    have hg := lastN_name _ last (simpleName_no_sep last hlast) hk.2.2.1
    subst hg
    have hd : '/' :: gitName = dotGit := rfl
    rw [hd, take_append_dotGit]
    have hc := hk.1
    rw [Count_append_name _ _ hlast, Count_extend _ _ (fun n hm => (hnames n hm).1)] at hc
    have hlen : names.length ≤ 1 := by
      simp only [maxDepth] at hc
      omega
    match names, hnames, hlen with
    | [], _, _ => exact Or.inl rfl
    | [n], hnames, _ => exact Or.inr ⟨n, (hnames n (by simp)).1, rfl⟩

/-- C1, as amended: for a root directory written plainly, every directory
tree and every filter, if `getGitPaths` followed by `makeGitRootsFromPath`
returns a repository whose working directory `P` is not the root
directory, then it returns no repository whose working directory lies
strictly inside `P`. -/
theorem getGitPaths_no_nested_below_root (fs : Root) (rootDir filter : GoString)
    (paths : List GoString) (roots : List GitRoot)
    (hp : plainPath rootDir = true) (hn : fs.namesOk = true)
    (h : getGitPaths fs rootDir filter = .ok paths)
    (hr : makeGitRootsFromPath paths = some roots) :
    ∀ P ∈ roots, ∀ Q ∈ roots, P.Path ≠ rootDir → ¬ (P.Path ++ ['/']) <+: Q.Path := by
  have hk := getGitPaths_kept fs rootDir filter paths h
  obtain ⟨roots2, hr2, hm⟩ := makeGitRootsFromPath_spec paths
    (fun p hp => ⟨(hk p hp).2.1, (hk p hp).2.2.1⟩)
  rw [hr] at hr2
  have hroots : roots = paths.map (fun p => (⟨p.take (p.length - 5)⟩ : GitRoot)) := by
    rw [← hm]
    exact Option.some.inj hr2
  subst hroots
  intro P hP Q hQ hne hpre
  obtain ⟨p, hpm, rfl⟩ := List.mem_map.1 hP
  obtain ⟨q, hqm, rfl⟩ := List.mem_map.1 hQ
  simp only at hne hpre
  have hlen := hpre.length_le
  rcases getGitPaths_roots_near fs rootDir filter paths hp hn h with h1 | h1
  · rw [h1] at hpm hqm
    simp only [List.mem_singleton] at hpm hqm
    subst hpm hqm
    simp at hlen
  · rcases h1 p hpm with hpr | ⟨n, hn1, hpr⟩
    · exact hne hpr
    · rw [hpr] at hpre hlen
      rcases h1 q hqm with hqr | ⟨m, hm1, hqr⟩
      · rw [hqr] at hlen
        simp at hlen
      · rw [hqr] at hpre
        have h2 : (n ++ ['/']) <+: m := by
          have h3 : (rootDir ++ '/' :: (n ++ ['/'])) <+: (rootDir ++ '/' :: m) := by
            simpa using hpre
          have h4 := (List.prefix_append_right_inj rootDir).1 h3
          exact (List.prefix_cons_inj '/').1 h4
        have h5 : '/' ∈ m := h2.subset (by simp)
        exact simpleName_no_sep m hm1 h5

theorem getGitPaths_no_nested_below_root_witness :
    getGitPaths nestedRepo "/r".toList [] = .ok ["/r/a/.git".toList] ∧
    makeGitRootsFromPath ["/r/a/.git".toList] = some [⟨"/r/a".toList⟩] ∧
    ∀ P ∈ [(⟨"/r/a".toList⟩ : GitRoot)], ∀ Q ∈ [(⟨"/r/a".toList⟩ : GitRoot)],
      P.Path ≠ "/r".toList → ¬ (P.Path ++ ['/']) <+: Q.Path :=
  ⟨by decide, by decide,
    getGitPaths_no_nested_below_root nestedRepo "/r".toList [] ["/r/a/.git".toList]
      [⟨"/r/a".toList⟩] (by decide) (by decide) (by decide) (by decide)⟩

/-- C1, refuted as stated: from the root `/r` with the markers `/r/.git` and
`/r/s/.git`, both `/r` and `/r/s` are returned, the second strictly inside
the first; and from the root `/r/`, written with a trailing separator, with
the markers `/r/a/.git` and `/r/a/sub/.git`, both `/r/a` and `/r/a/sub` are
returned. -/
theorem getGitPaths_returns_nested :
    getGitPaths repoInRepo "/r".toList [] = .ok ["/r/.git".toList, "/r/s/.git".toList] ∧
    makeGitRootsFromPath ["/r/.git".toList, "/r/s/.git".toList]
      = some [⟨"/r".toList⟩, ⟨"/r/s".toList⟩] ∧
    ("/r".toList ++ ['/']) <+: "/r/s".toList ∧
    getGitPaths nestedRepo "/r/".toList []
      = .ok ["/r/a/.git".toList, "/r/a/sub/.git".toList] ∧
    makeGitRootsFromPath ["/r/a/.git".toList, "/r/a/sub/.git".toList]
      = some [⟨"/r/a".toList⟩, ⟨"/r/a/sub".toList⟩] ∧
    ("/r/a".toList ++ ['/']) <+: "/r/a/sub".toList := by
  decide

/-! ## The walk without a filter finds every marker within the limit -/

theorem markersWithin_deep (rootDir : GoString) :
    ∀ (es : Entries) (path : GoString), namesOk es = true →
      maxDepth + Count rootDir '/' ≤ Count path '/' + 1 →
      markersWithin rootDir path es = [] := by
  intro es
  induction es with
  | nil => intro path _ _; rfl
  | file name rest ih =>
    intro path hn hd
    simp only [namesOk, Bool.and_eq_true] at hn
    simpa [markersWithin] using ih path hn.2 hd
  | noread name rest ih =>
    intro path hn hd
    simp only [namesOk, Bool.and_eq_true] at hn
    have hc := Count_append_name path name hn.1
    simp only [markersWithin, ih path hn.2 hd, List.append_nil]
    rw [if_neg]
    rintro ⟨-, h2⟩
    omega
  | dir name children rest ihc ihr =>
    intro path hn hd
    simp only [namesOk, Bool.and_eq_true] at hn
    have hc := Count_append_name path name hn.1.1
    simp only [markersWithin, ihr path hn.2 hd, List.append_nil]
    split
    · rw [if_neg]
      omega
    · exact ihc _ hn.1.2 (by omega)

theorem gitWalkFn_deep (rootDir filter path : GoString) (info : Option FileInfo)
    (s : List GoString) (h : maxDepth + Count rootDir '/' ≤ Count path '/') :
    gitWalkFn rootDir filter path info none s = (s, some .SkipDir) := by
  unfold gitWalkFn
  simp [h]

theorem gitWalkFn_file (rootDir filter path : GoString) (s : List GoString)
    (h : Count path '/' < maxDepth + Count rootDir '/') :
    gitWalkFn rootDir filter path (some ⟨false⟩) none s = (s, none) := by
  unfold gitWalkFn
  simp [Nat.not_le.2 h]

theorem gitWalkFn_other (rootDir path name : GoString) (s : List GoString)
    (hn : simpleName name = true) (hg : name ≠ gitName)
    (h : Count (path ++ '/' :: name) '/' < maxDepth + Count rootDir '/') :
    gitWalkFn rootDir [] (path ++ '/' :: name) (some ⟨true⟩) none s = (s, none) := by
  have hl : lastN (path ++ '/' :: name) 5 ≠ dotGit :=
    fun hl => hg (lastN_name path name (simpleName_no_sep name hn) hl)
  unfold gitWalkFn
  simp [Nat.not_le.2 h, hl]

theorem gitWalkFn_found (rootDir path : GoString) (s : List GoString) (hp : path ≠ [])
    (h : Count (path ++ dotGit) '/' < maxDepth + Count rootDir '/') :
    gitWalkFn rootDir [] (path ++ dotGit) (some ⟨true⟩) none s
      = (s ++ [path ++ dotGit], some .SkipDir) := by
  have hl : (path ++ dotGit).length > 5 := by
    have := List.length_pos.2 hp
    simp [dotGit]
    omega
  have hs := lastN_append_dotGit path
  unfold gitWalkFn
  simp only [Option.isSome_none, Bool.false_eq_true, if_false, Option.elim, hl, hs, true_and,
    and_self, if_true, List.length_nil, ge_iff_le, Nat.not_le.2 h]

theorem walkNames_markers (rootDir : GoString) :
    ∀ (es : Entries) (path : GoString) (s : List GoString), namesOk es = true →
      readable es = true → plainPath path = true →
      ∃ e, walkNames (gitWalkFn rootDir []) path es s
          = (s ++ markersWithin rootDir path es, e) ∧ (e = none ∨ e = some .SkipDir) := by
  intro es
  induction es with
  | nil => intro path s _ _ _; exact ⟨none, by simp [walkNames, markersWithin], Or.inl rfl⟩
  | noread name rest ih =>
    intro path s _ hr _
    simp [readable] at hr
  | file name rest ih =>
    intro path s hn hr hp
    simp only [namesOk, Bool.and_eq_true] at hn
    simp only [readable] at hr
    simp only [walkNames, markersWithin, Join_plain _ _ hp hn.1]
    by_cases hd : maxDepth + Count rootDir '/' ≤ Count (path ++ '/' :: name) '/'
    · rw [gitWalkFn_deep _ _ _ _ _ hd]
      have hc := Count_append_name path name hn.1
      rw [markersWithin_deep rootDir rest path hn.2 (by omega)]
      exact ⟨some .SkipDir, by simp, Or.inr rfl⟩
    · rw [gitWalkFn_file _ _ _ _ (Nat.not_le.1 hd)]
      exact ih path s hn.2 hr hp
  | dir name children rest ihc ihr =>
    intro path s hn hr hp
    simp only [namesOk, Bool.and_eq_true] at hn
    simp only [readable, Bool.and_eq_true] at hr
    have hc := Count_append_name path name hn.1.1
    simp only [walkNames, markersWithin, Join_plain _ _ hp hn.1.1]
    by_cases hd : maxDepth + Count rootDir '/' ≤ Count (path ++ '/' :: name) '/'
    · rw [gitWalkFn_deep _ _ _ _ _ hd]
      have h1 : (if name = gitName then
          if Count (path ++ '/' :: name) '/' < maxDepth + Count rootDir '/'
            then [path ++ '/' :: name] else []
          else markersWithin rootDir (path ++ '/' :: name) children) = [] := by
        split
        · rw [if_neg (Nat.not_lt.2 hd)]
        · exact markersWithin_deep rootDir children _ hn.1.2 (by omega)
      rw [h1]
      simpa using ihr path s hn.2 hr.2 hp
    · by_cases hg : name = gitName
      · subst hg
        have hdg : '/' :: gitName = dotGit := rfl
        rw [hdg] at hd ⊢
        rw [gitWalkFn_found rootDir path s (plainPath_ne_nil _ hp) (Nat.not_le.1 hd)]
        simp only [if_true, if_pos (Nat.not_le.1 hd)]
        obtain ⟨e, he, hor⟩ := ihr path (s ++ [path ++ dotGit]) hn.2 hr.2 hp
        exact ⟨e, by simpa using he, hor⟩
      · rw [gitWalkFn_other rootDir path name s hn.1.1 hg (Nat.not_le.1 hd)]
        simp only [if_neg hg]
        obtain ⟨e1, he1, hor1⟩ := ihc (path ++ '/' :: name) s hn.1.2 hr.1
          (plainPath_append _ _ hp hn.1.1)
        rw [he1]
        obtain ⟨e, he, hor⟩ := ihr path
          (s ++ markersWithin rootDir (path ++ '/' :: name) children) hn.2 hr.2 hp
        refine ⟨e, ?_, hor⟩
        rcases hor1 with rfl | rfl
        · simpa using he
        · simpa using he

theorem markersWithin_complete (rootDir : GoString) :
    ∀ (es : Entries) (path : GoString) (names : List GoString), namesOk es = true →
      readable es = true → hasDir es (names ++ [gitName]) = true → gitName ∉ names →
      Count path '/' + names.length + 1 < maxDepth + Count rootDir '/' →
      extend path (names ++ [gitName]) ∈ markersWithin rootDir path es := by
  intro es
  induction es with
  | nil =>
    intro path names _ _ hh _ _
    cases names <;> simp [hasDir] at hh
  | noread name rest ih =>
    intro path names _ hr _ _ _
    simp [readable] at hr
  | file name rest ih =>
    intro path names hn hr hh hg hc
    simp only [namesOk, Bool.and_eq_true] at hn
    simp only [readable] at hr
    have hh2 : hasDir rest (names ++ [gitName]) = true := by
      cases names <;> simpa [hasDir] using hh
    simpa [markersWithin] using ih path names hn.2 hr hh2 hg hc
  | dir name children rest ihc ihr =>
    intro path names hn hr hh hg hc
    simp only [namesOk, Bool.and_eq_true] at hn
    simp only [readable, Bool.and_eq_true] at hr
    have hcn := Count_append_name path name hn.1.1
    simp only [markersWithin, List.mem_append]
    cases names with
    | nil =>
      simp only [List.nil_append, hasDir, Bool.or_eq_true, Bool.and_eq_true,
        decide_eq_true_eq] at hh
      rcases hh with ⟨h1, -⟩ | h2
      · subst h1
        left
        simp only [if_true, List.length_nil] at hc ⊢
        rw [if_pos (by omega)]
        simp [extend]
      · right
        exact ihr path [] hn.2 hr.2 (by simpa using h2) hg hc
    | cons m ms =>
      simp only [List.cons_append, hasDir, Bool.or_eq_true, Bool.and_eq_true,
        decide_eq_true_eq] at hh
      rcases hh with ⟨h1, h2⟩ | h2
      · subst h1
        left
        have hne : name ≠ gitName := fun e => hg (by simp [e])
        rw [if_neg hne]
        have h3 : hasDir children (ms ++ [gitName]) = true := by
          rcases h2 with h2 | h2
          · simp at h2
          · exact h2
        have := ihc (path ++ '/' :: name) ms hn.1.2 hr.1 h3
          (fun e => hg (List.mem_cons_of_mem _ e))
          (by simp only [List.length_cons] at hc; omega)
        simpa [extend] using this
      · right
        exact ihr path (m :: ms) hn.2 hr.2 (by simpa [hasDir] using h2) hg hc

/-- C4, as amended: for every directory tree in which every directory can
be listed, and every root directory written plainly and not itself ending
in `"/.git"`, `getGitPaths` without a filter returns, in listing order, the
directories named `.git` below the root directory whose path has fewer than
`maxDepth` separators more than the root directory and that do not lie
inside another directory named `.git`; so it returns every such directory
reached through at most one directory name, `.git` directly in the root
directory and `.git` one level further down. -/
theorem getGitPaths_complete_within (es : Entries) (rootDir : GoString)
    (hp : plainPath rootDir = true) (hroot : lastN rootDir 5 ≠ dotGit)
    (hn : namesOk es = true) (hr : readable es = true) :
    getGitPaths (.dir es) rootDir [] = .ok (markersWithin rootDir rootDir es) ∧
    ∀ names, hasDir es (names ++ [gitName]) = true → gitName ∉ names →
      names.length + 1 < maxDepth →
      extend rootDir (names ++ [gitName]) ∈ markersWithin rootDir rootDir es := by
  constructor
  · have h0 : gitWalkFn rootDir [] rootDir (some ⟨true⟩) none [] = ([], none) := by
      unfold gitWalkFn
      simp [hroot, maxDepth]
    obtain ⟨e, he, hor⟩ := walkNames_markers rootDir es rootDir [] hn hr hp
    simp only [getGitPaths, Walk, h0, he, List.nil_append]
    rcases hor with rfl | rfl <;> simp
  · intro names hh hg hl
    exact markersWithin_complete rootDir es rootDir names hn hr hh hg (by omega)

theorem getGitPaths_complete_within_witness :
    getGitPaths (.dir threeMarkers) "/r".toList []
      = .ok ["/r/.git".toList, "/r/a/.git".toList] ∧
    hasDir threeMarkers (["a".toList] ++ [gitName]) = true ∧
    extend "/r".toList (["a".toList] ++ [gitName])
      ∈ markersWithin "/r".toList "/r".toList threeMarkers :=
  ⟨by decide, by decide,
    (getGitPaths_complete_within threeMarkers "/r".toList (by decide) (by decide)
      (by decide) (by decide)).2 ["a".toList] (by decide) (by decide) (by decide)⟩

/-- C4, refuted as stated: from the root `/r`, given without a trailing
separator, the directory `/r/a/b/.git` exists, has three separators more
than the root directory, lies inside no other `.git` directory, and is not
returned: `getGitPaths` without a filter returns nothing. -/
theorem getGitPaths_misses_depth_three :
    hasDir twoLevels ["a".toList, "b".toList, gitName] = true ∧
    extend "/r".toList ["a".toList, "b".toList, gitName] = "/r/a/b/.git".toList ∧
    Count "/r/a/b/.git".toList '/' = Count "/r".toList '/' + maxDepth ∧
    getGitPaths (.dir twoLevels) "/r".toList [] = .ok [] := by
  decide

/-! ## The walk of `getGitPaths` does not panic -/

theorem walkNames_no_panic {σ : Type} (fn : WalkFunc σ)
    (hfn : ∀ path info err s, err ≠ some .panic → (fn path info err s).2 ≠ some .panic) :
    ∀ (es : Entries) (path : GoString) (s : σ), (walkNames fn path es s).2 ≠ some .panic := by
  intro es
  induction es with
  | nil => intro path s; simp [walkNames]
  | file name rest ih =>
    intro path s
    have h1 := hfn (Join path name) (some ⟨false⟩) none s (by simp)
    rcases hq : fn (Join path name) (some ⟨false⟩) none s with ⟨s1, _ | err⟩
    · simpa [walkNames, hq] using ih path s1
    · rw [hq] at h1
      simpa [walkNames, hq] using h1
  | noread name rest ih =>
    intro path s
    have h1 := hfn (Join path name) (some ⟨true⟩) (some .io) s (by simp)
    rcases hq : fn (Join path name) (some ⟨true⟩) (some .io) s with ⟨s1, _ | err⟩
    · simpa [walkNames, hq] using ih path s1
    · rw [hq] at h1
      by_cases he : err = .SkipDir
      · simpa [walkNames, hq, he] using ih path s1
      · simpa [walkNames, hq, he] using h1
  | dir name children rest ihc ihr =>
    intro path s
    have h1 := hfn (Join path name) (some ⟨true⟩) none s (by simp)
    rcases hq : fn (Join path name) (some ⟨true⟩) none s with ⟨s1, _ | err⟩
    · have h2 := ihc (Join path name) s1
      rcases hc : walkNames fn (Join path name) children s1 with ⟨s2, _ | err2⟩
      · simpa [walkNames, hq, hc] using ihr path s2
      · rw [hc] at h2
        by_cases he : err2 = .SkipDir
        · simpa [walkNames, hq, hc, he] using ihr path s2
        · simpa [walkNames, hq, hc, he] using h2
    · rw [hq] at h1
      by_cases he : err = .SkipDir
      · simpa [walkNames, hq, he] using ihr path s1
      · simpa [walkNames, hq, he] using h1

theorem isFilterDirInGitPath_in_range (path filter : GoString) (h : lastN path 5 = dotGit) :
    isFilterDirInGitPath path filter ≠ none := by
  have h1 := take_append_lastN path 5
  rw [h] at h1
  have h2 : 2 ≤ (Split path '/').length := by
    rw [← h1, Split_marker, List.length_append]
    have := List.length_pos.2 (Split_ne_nil (path.take (path.length - 5)) '/')
    simp
    omega
  unfold isFilterDirInGitPath
  simp only
  rw [if_neg (by omega)]
  simp

theorem gitWalkFn_no_panic (rootDir filter path : GoString) (info : Option FileInfo)
    (err : Option Error) (s : List GoString) (h : err ≠ some .panic) :
    (gitWalkFn rootDir filter path info err s).2 ≠ some .panic := by
  unfold gitWalkFn
  split
  · exact h
  · split
    · simp
    · split
      · rename_i hm
        split
        · simp
        · have := isFilterDirInGitPath_in_range path filter hm.2.2
          split
          · rename_i hnone
            exact absurd hnone this
          · simp
          · simp
      · simp

/-- The index of `isFilterDirInGitPath` is in range wherever `getGitPaths`
calls it: the walk ends with its list of paths or with an input-output
error, never with a panic. -/
theorem getGitPaths_no_panic (fs : Root) (rootDir filter : GoString) :
    getGitPaths fs rootDir filter ≠ .error .panic := by
  have hw : (Walk rootDir fs (gitWalkFn rootDir filter) []).2 ≠ some .panic := by
    have hcb := gitWalkFn_no_panic rootDir filter
    unfold Walk
    simp only
    split
    · simp
    · cases fs with
      | missing => exact hcb _ _ _ _ (by simp)
      | file => exact hcb _ _ _ _ (by simp)
      | noread => exact hcb _ _ _ _ (by simp)
      | dir entries =>
        have h1 := hcb rootDir (some ⟨true⟩) none [] (by simp)
        rcases hq : gitWalkFn rootDir filter rootDir (some ⟨true⟩) none [] with ⟨s1, _ | e⟩
        · simpa [hq] using walkNames_no_panic (gitWalkFn rootDir filter)
            (fun path info err s he => hcb path info err s he) entries rootDir s1
        · rw [hq] at h1
          simpa [hq] using h1
  unfold getGitPaths
  rcases hq : Walk rootDir fs (gitWalkFn rootDir filter) [] with ⟨s1, _ | err⟩
  · simp
  · rw [hq] at hw
    simpa using hw

end Gogirt
